import Mathlib

/-!
# Verification of `pyflowgraph` against its specification

Shallow embedding, in Lean 4, of the core components of the `flowgraph`
package (object tracker, execution tracer, argument binder, annotator, and
flow-graph builder), translated from the Python sources under
`flowgraph/trace/` and `flowgraph/core/`, together with theorems settling
the specification's claims about them.

Modelling conventions:
* Python dictionaries (`dict` / `OrderedDict`) are modelled as association
  lists with `OrderedDict`-style update semantics (updating an existing key
  keeps its position, inserting a fresh key appends at the end).
* Machine-level Python values are modelled by small inductive types carrying
  exactly the observations the translated code makes of them.
* Code that can raise is modelled with `Option` (a generic exception) or
  `Except` when the distinction between exception kinds matters.
-/

namespace PyFlowGraph

/-- Model of `OrderedDict`-style lookup in an association list. -/
def alookup {α β : Type} [BEq α] (l : List (α × β)) (k : α) : Option β :=
  match l.find? (fun p => p.1 == k) with
  | some p => some p.2
  | none => none

/-- Model of `OrderedDict`-style single-key update: an existing key keeps its position
and gets the new value; a fresh key is appended at the end. -/
def aset {α β : Type} [BEq α] (l : List (α × β)) (k : α) (v : β) : List (α × β) :=
  match l with
  | [] => [(k, v)]
  | (k', v') :: rest =>
    if k' == k then (k', v) :: rest else (k', v') :: aset rest k v

/-- Model of `OrderedDict.update`: apply `aset` for each pair of the second list in
order. -/
def aupdate {α β : Type} [BEq α] (l : List (α × β)) (new : List (α × β)) :
    List (α × β) :=
  new.foldl (fun acc p => aset acc p.1 p.2) l

/-- Model of `dict.pop(k, None)`: remove the first binding of a key, if present. -/
def aremove {α β : Type} [BEq α] (l : List (α × β)) (k : α) : List (α × β) :=
  match l with
  | [] => []
  | (k', v') :: rest =>
    if k' == k then rest else (k', v') :: aremove rest k

/-! ## Object tracker (`flowgraph/trace/object_tracker.py`)

Python runtime values are modelled, for the tracker's purposes, by the kind
of object they are.  The only observations `ObjectTracker` makes of a value
are (a) `isinstance(obj, (types.FunctionType, types.MethodType))` and
(b) whether `weakref.ref(obj)` succeeds; CPython fixes (b) per kind:
functions, bound methods, modules, types and ordinary class instances are
weak-referenceable, while `int`, `str`, `tuple`, `list`, `dict`, `set` and
builtin functions are not. -/

inductive PyKind where
  | function        -- types.FunctionType (free function / lambda)
  | method          -- types.MethodType (bound method)
  | builtinFunction -- builtin_function_or_method
  | module          -- types.ModuleType
  | type'           -- a class object
  | instance'       -- ordinary user-defined class instance
  | int | str | tuple | list | dict | set
  deriving DecidableEq, Repr

/-- Can `weakref.ref` be created for a value of this kind (CPython)? -/
def weakrefable : PyKind → Bool
  | .function => true
  | .method => true
  | .builtinFunction => false
  | .module => true
  | .type' => true
  | .instance' => true
  | .int => false
  | .str => false
  | .tuple => false
  | .list => false
  | .dict => false
  | .set => false

/-- A tracked runtime value: its memory address (`id(obj)`) and kind. -/
structure PyObj where
  addr : Nat
  kind : PyKind
  deriving DecidableEq, Repr

namespace ObjectTracker

/-- Model of `ObjectTracker.is_trackable`: a value is rejected if it is a function or
bound method (`isinstance(obj, (types.FunctionType, types.MethodType))`),
and otherwise accepted exactly when `weakref.ref(obj)` succeeds. -/
def is_trackable (obj : PyObj) : Bool :=
  if obj.kind = .function ∨ obj.kind = .method then false
  else weakrefable obj.kind

/-- The spec's notion of trackability, written from its words: "a value is
trackable iff a weak reference to it can be created and it is not a bare
callable (a free function, bound method, or module-like value)".  Kept
separate from `is_trackable` (translated from the code) so the two can be
compared. -/
def trackableSpec (obj : PyObj) : Bool :=
  weakrefable obj.kind &&
    !(obj.kind = .function ∨ obj.kind = .method ∨ obj.kind = .module : Bool)

/-- Mutable state of an `ObjectTracker`: the two maps and the id counter. -/
structure State where
  mem_map : List (Nat × String)    -- memory address -> object ID
  ref_map : List (String × Nat)    -- object ID -> weakref (to address)
  id_count : Nat
  deriving DecidableEq, Repr

/-- A fresh tracker. -/
def State.initial : State := { mem_map := [], ref_map := [], id_count := 0 }

/-- Model of `ObjectTracker.get_object`: look up an object by ID; `None` when the ID
is unknown or the weak reference is dead (a dead reference has been removed
from `ref_map` by the finalizer, see `reclaim`). -/
def get_object (s : State) (obj_id : String) : Option Nat :=
  alookup s.ref_map obj_id

/-- Model of `ObjectTracker.get_id`. -/
def get_id (s : State) (obj : PyObj) : Option String :=
  if !is_trackable obj then none
  else alookup s.mem_map obj.addr

/-- Model of `ObjectTracker.is_tracked`. -/
def is_tracked (s : State) (obj : PyObj) : Bool :=
  if !is_trackable obj then false
  else (alookup s.mem_map obj.addr).isSome

/-- Model of `ObjectTracker.track`.  Raises `TypeError` (modelled as `.error`) on an
untrackable value, returns the existing ID for an already-tracked address,
and otherwise allocates the next ID from the counter and records both map
entries.  The returned state is the tracker after the call (unchanged when
an exception is raised, since the raise happens before any mutation). -/
def track (s : State) (obj : PyObj) : Except String String × State :=
  if !is_trackable obj then
    -- "Cannot track object of type %r" (the %r rendering of the type is elided)
    (.error "Cannot track object of type", s)
  else
    match alookup s.mem_map obj.addr with
    | some obj_id => (.ok obj_id, s)
    | none =>
      let obj_id := toString (s.id_count + 1)
      (.ok obj_id,
        { mem_map := aset s.mem_map obj.addr obj_id,
          ref_map := aset s.ref_map obj_id obj.addr,
          id_count := s.id_count + 1 })

/-- The weak-reference finalizer `obj_gc_callback` installed by `track`:
when the object at `addr` (tracked under `obj_id`) is reclaimed by the
garbage collector, both map entries are deleted. -/
def reclaim (s : State) (addr : Nat) (obj_id : String) : State :=
  { s with mem_map := aremove s.mem_map addr, ref_map := aremove s.ref_map obj_id }

end ObjectTracker

/-! ## Tracer runtime (`flowgraph/trace/tracer.py`)

The tracer maintains a stack of scopes; each scope carries the `TraceCall`
event that entered it (none at top level), an `emit_events` flag, and a
stack of in-flight call expressions.  Events are "emitted" by assignment to
the observable `event` trait; the model accumulates those assignments in an
`emitted` list, in order.  Argument *values* play no role in the emission
discipline, so `_trace_argument`'s accumulators are modelled by the
remaining-argument counter `nargs` alone. -/

namespace Tracer

/-- A callable as the tracer inspects it: `get_func_module_name` and
`get_func_qual_name` results. -/
structure Func where
  module_name : String
  qual_name : String
  deriving DecidableEq, Repr

/-- The part of a `TraceCall` event relevant to emission. -/
structure CallEvent where
  module_name : String
  qual_name : String
  atomic : Bool
  deriving DecidableEq, Repr

/-- An emitted trace event (the payloads irrelevant to claims are elided). -/
inductive Event where
  | call (e : CallEvent)
  | ret (e : CallEvent) (multiple_values : Bool)
  | access (name : String)
  | assign (name : String)
  | delete (name : String)
  deriving DecidableEq, Repr

/-- Model of `_CallItem`: one in-flight call expression (positional/keyword
accumulators elided; only `nargs` drives the state machine). -/
structure CallItem where
  function : Func
  nargs : Nat
  deriving DecidableEq, Repr

/-- Model of `_ScopeItem`. -/
structure Scope where
  event : Option CallEvent
  emit_events : Bool
  call_stack : List CallItem
  deriving DecidableEq, Repr

/-- Tracer state: its implementation module name (`self.__class__.__module__`),
the scope stack (head is the top), and the events assigned to the `event`
slot so far, oldest first. -/
structure State where
  tracerModule : String
  stack : List Scope
  emitted : List Event
  deriving DecidableEq, Repr

/-- State after `trace()` resets: a single top-level scope. -/
def State.initial (tracerModule : String) : State :=
  { tracerModule := tracerModule,
    stack := [{ event := none, emit_events := true, call_stack := [] }],
    emitted := [] }

/-- Model of `Tracer._create_call_event`: the atomicity rule
`atomic = module_name != self.__class__.__module__`. -/
def create_call_event (tracerModule : String) (f : Func) : CallEvent :=
  { module_name := f.module_name, qual_name := f.qual_name,
    atomic := f.module_name != tracerModule }

/-- Model of `Tracer._trace_call`: pop the pending call, create the call event, emit
it iff the enclosing scope emits events and its own call event (if any) is
not atomic, and push the new scope.  `None` models a crash (empty stack or
empty call stack; `bind_arguments` failures are not modelled since they do
not depend on the emission discipline). -/
def trace_call (s : State) : Option State :=
  match s.stack with
  | [] => none
  | prev_scope :: rest =>
    match prev_scope.call_stack with
    | [] => none
    | call :: calls =>
      let event := create_call_event s.tracerModule call.function
      let emit_events := prev_scope.emit_events &&
        !(match prev_scope.event with
          | some e => e.atomic
          | none => false)
      let scope : Scope :=
        { event := some event, emit_events := emit_events, call_stack := [] }
      some { s with
        stack := scope :: { prev_scope with call_stack := calls } :: rest,
        emitted := if emit_events then s.emitted ++ [.call event] else s.emitted }

/-- Model of `Tracer._trace_function`: push a `_CallItem`; when the call has no
arguments the function is called immediately (`_trace_call`). -/
def trace_function (s : State) (f : Func) (nargs : Nat) : Option State :=
  match s.stack with
  | [] => none
  | scope :: rest =>
    let s' := { s with stack :=
      { scope with call_stack := { function := f, nargs := nargs } :: scope.call_stack } :: rest }
    if nargs = 0 then trace_call s' else some s'

/-- Model of `Tracer._trace_argument`: decrement the remaining-argument counter of
the innermost pending call; when it reaches zero the function is called. -/
def trace_argument (s : State) : Option State :=
  match s.stack with
  | [] => none
  | scope :: rest =>
    match scope.call_stack with
    | [] => none
    | call :: calls =>
      let call' := { call with nargs := call.nargs - 1 }
      let s' := { s with stack :=
        { scope with call_stack := call' :: calls } :: rest }
      if call'.nargs = 0 then trace_call s' else some s'

/-- Model of `Tracer._trace_return`: pop the scope and emit the return event iff the
popped scope's `emit_events` flag is set.  (The `multiple_values` tuple
coercion only affects the payload, not emission.)  Crashes when the popped
scope has no call event (`scope.event.function` on `None`). -/
def trace_return (s : State) (multiple_values : Bool) : Option State :=
  match s.stack with
  | [] => none
  | scope :: rest =>
    match scope.event with
    | none => none
    | some call_event =>
      some { s with
        stack := rest,
        emitted :=
          if scope.emit_events then s.emitted ++ [.ret call_event multiple_values]
          else s.emitted }

/-- Model of `Tracer._trace_access`: emit an access event iff the *current* scope's
`emit_events` flag is set. -/
def trace_access (s : State) (name : String) : Option State :=
  match s.stack with
  | [] => none
  | scope :: _ =>
    some { s with emitted :=
      if scope.emit_events then s.emitted ++ [.access name] else s.emitted }

/-- Model of `Tracer._trace_assign` (pattern targets and boxed values elided: they do
not affect the emission condition). -/
def trace_assign (s : State) (name : String) : Option State :=
  match s.stack with
  | [] => none
  | scope :: _ =>
    some { s with emitted :=
      if scope.emit_events then s.emitted ++ [.assign name] else s.emitted }

/-- Model of `Tracer._trace_delete`. -/
def trace_delete (s : State) (name : String) : Option State :=
  match s.stack with
  | [] => none
  | scope :: _ =>
    some { s with emitted :=
      if scope.emit_events then s.emitted ++ [.delete name] else s.emitted }

/-- Does the scope on top of the stack have an atomic call event?  (I.e.,
is execution currently directly inside an atomic call's body.) -/
def topScopeAtomic (s : State) : Bool :=
  match s.stack with
  | scope :: _ =>
    match scope.event with
    | some e => e.atomic
    | none => false
  | [] => false

end Tracer

/-! ## Argument binder (`flowgraph/trace/inspect_function.py`)

Call-site values are opaque to the binder; they are modelled as `Nat`.
A callable is modelled by the three observations `bind_arguments` makes of
it: its `__module__`, its bound receiver (`fun.__self__` when
`is_instance_method` holds, i.e. `__self__` exists and is neither a class
nor a module), and the outcome of `inspect.signature`:  `none` models a
`ValueError` ("no introspectable signature"), while `some b` models a
signature whose `_bind_arguments_with_signature` — `sig.bind` followed by
variadic expansion — is the function `b` (returning `none` on a bind
rejection, i.e. an arity mismatch). -/

namespace InspectFunction

/-- The binder's view of a Python callable. -/
structure Callable where
  module : Option String
  receiver : Option Nat
  sig : Option (List Nat → List (String × Nat) → Option (List (String × Nat)))

/-- Model of `is_instance_method` (the `__self__` existence/class/module test is
folded into `receiver`). -/
def is_instance_method (f : Callable) : Bool :=
  f.receiver.isSome

/-- Model of `string.ascii_lowercase`, as the list of one-character names the
operator-module fallback namer draws from. -/
def ascii_lowercase : List String :=
  ["a", "b", "c", "d", "e", "f", "g", "h", "i", "j", "k", "l", "m",
   "n", "o", "p", "q", "r", "s", "t", "u", "v", "w", "x", "y", "z"]

/-- Model of `_fallback_argument_namer`.  `string.ascii_lowercase[i]` raises
`IndexError` past 26 positional arguments, hence the `Option`. -/
def fallback_argument_namer (f : Callable) (i : Nat) : Option String :=
  if f.module = some "operator" ∨ f.module = some "_operator" then
    ascii_lowercase.get? i
  else if is_instance_method f then
    some (toString (i + 1))
  else
    some (toString i)

/-- Model of `_bind_arguments_without_signature`: name each positional argument with
the namer, then `update` with the keywords. -/
def bind_arguments_without_signature (args : List Nat)
    (kwargs : List (String × Nat)) (arg_name : Nat → Option String) :
    Option (List (String × Nat)) :=
  let rec go (i : Nat) (rest : List Nat) (acc : List (String × Nat)) :
      Option (List (String × Nat)) :=
    match rest with
    | [] => some acc
    | v :: rest' =>
      match arg_name i with
      | none => none
      | some name => go (i + 1) rest' (aset acc name v)
  (go 0 args []).map (fun arguments => aupdate arguments kwargs)

/-- Model of `bind_arguments`: bind `self` first for instance methods, then bind the
rest via the signature when one is introspectable, and otherwise via the
fallback namer. -/
def bind_arguments (f : Callable) (args : List Nat)
    (kwargs : List (String × Nat)) : Option (List (String × Nat)) :=
  let arguments : List (String × Nat) :=
    match f.receiver with
    | some r => [("self", r)]
    | none => []
  match f.sig with
  | none =>
    (bind_arguments_without_signature args kwargs
        (fallback_argument_namer f)).map (aupdate arguments)
  | some b =>
    (b args kwargs).map (aupdate arguments)

end InspectFunction

/-! ## Annotator (`flowgraph/core/annotator.py`)

Annotation records are JSON documents; the annotator reads their `pk` and
`class` fields.  Python classes are referred to by fully-qualified name; the
runtime subclass relation between the names on a value's MRO is supplied as
a Boolean relation `sub` (`sub a b` = `issubclass(subclasses[a],
subclasses[b])`). -/

namespace Annotator

/-- An annotation record, as the annotator reads it.  `classes` models
`_get_annotation_classes` output (the `class` field, [] when missing, a
one-element list when it is a single string). -/
structure Note where
  pk : String
  classes : List String
  deriving DecidableEq, Repr

/-- Model of `Annotator._annotation_le`: `first <= second` iff every class in
`first` is a superclass of some class in `second` (`issuperclass(c1, c2)`
unfolds to `issubclass(subclasses[c2], subclasses[c1])`, i.e. `sub c2 c1`). -/
def annotation_le (sub : String → String → Bool) (first second : Note) : Bool :=
  first.classes.all (fun c1 => second.classes.any (fun c2 => sub c2 c1))

/-- The loop body of `Annotator._resolve_type`: a candidate replaces `best`
when its class set is a subset of the value's MRO names and `best` is `None`
or `best <= note`. -/
def resolve_step (sub : String → String → Bool) (subclassNames : List String)
    (best : Option Note) (note : Note) : Option Note :=
  if note.classes.all (fun c => subclassNames.contains c) &&
      (match best with
       | none => true
       | some b => annotation_le sub b note) then
    some note
  else
    best

/-- Model of `Annotator._resolve_type`, with the iteration over the MRO's per-package
queries flattened to the list of returned records in encounter order. -/
def resolve_type (sub : String → String → Bool) (subclassNames : List String)
    (notes : List Note) : Option Note :=
  notes.foldl (resolve_step sub subclassNames) none

/-- Model of `Annotator.notate_function`'s guard: raise `TypeError` on a
non-callable; otherwise return the record the (cached) lookup produces,
which may be `none`.  The database lookup itself is supplied as `lookup`. -/
def notate_function (callable : Bool) (lookup : Option Note) :
    Except String (Option Note) :=
  if !callable then
    .error "Attempt to annotate non-callable as function"
  else
    .ok lookup

end Annotator

/-! ## Flow-graph builder (`flowgraph/core/flow_graph_builder.py`)

The builder consumes the trace event stream and maintains a stack of
per-scope contexts (graph, output table, variable table, event table).

Modelling choices, in addition to the file-level conventions:

* Runtime values are modelled by the inductive `PyVal`, carrying exactly
  what the builder observes of a value: `None`-ness, string payloads (for
  `getattr` name arguments), sequence elements (for `multiple_values`
  returns and compound assignment), attribute-ignorability (whether the
  value is a function/method/module/type, cf. `is_attribute_ignorable`),
  the identifier the object tracker has for the value, and the value's
  readable slots (`get_slot` results).  Values are finite trees; a Python
  object graph whose annotated slots form a cycle would make
  `_add_object_slots` recurse forever (a `RecursionError`, i.e. a crash),
  so the tree restriction covers exactly the terminating executions.
* Tracking: `maybe_track` is called by the builder but is not part of the
  available sources; per the spec ("untrackable values are silently
  rejected", `track` is idempotent) each object has a stable identifier or
  none, and that labelling is baked into the value as `objid`.
* Event identity (the `WeakKeyDictionary` keys of the event table and the
  values of `argument_events`) is modelled by `Nat` tokens.  Collection of
  weakly-held event-table entries is not modelled; it only removes
  candidate edge sources.
* Node and edge attribute data that no claim touches (deep-copied
  primitive values, type names, per-port object ids, `annotation_index`)
  is elided from `NodeData`/port data; ports keep their name and
  `portkind`, which the claims are about.
* The sentinel nodes created by `new_flow_graph` (not under the available
  sources; the spec: "two distinguished sentinel nodes per (sub)graph,
  `INPUT` and `OUTPUT`") are modelled as the distinguished constructors
  `Node.input` / `Node.output`; call and slot nodes, whose names contain
  `":"`, can never collide with them. -/

namespace Builder

/-- A Python runtime value, as the flow-graph builder observes it. -/
inductive PyVal where
  | pynone
  | pystr (s : String)
  | obj (objid : Option String) (ignorable : Bool)
      (slots : List (String × PyVal))
  | seq (elems : List PyVal)

/-- Modelled from the spec: `ObjectTracker.maybe_track`, which the builder
calls but which is absent from the available sources (only its callers
are).  Per the spec, "untrackable values are silently rejected" and `track`
is idempotent, so over one build each object carries a fixed identifier or
none; the labelling is the `objid` component of the value.  `None`,
strings and sequences (`tuple`/`list`) are never weak-referenceable, hence
never tracked. -/
def maybe_track : PyVal → Option String
  | .obj objid _ _ => objid
  | _ => none

/-- Model of `ObjectTracker.get_id` as the builder uses it.  Under the fixed
labelling of `maybe_track` the two coincide (`get_id` returns the identifier
of an already-tracked object; every tracked object's identifier is its
label). -/
def get_id (v : PyVal) : Option String := maybe_track v

/-- Model of `FlowGraphBuilder.is_attribute_ignorable`: is the value a
type, module, function or (builtin) method (so that a `getattr` call
returning it is removed)?  Captured by the `ignorable` component. -/
def is_attribute_ignorable : PyVal → Bool
  | .obj _ ignorable _ => ignorable
  | _ => false

/-- Model of `enumerate(...)` / `len(...)` on a return payload: sequences
yield their elements, strings iterate as one-character strings, and other
values raise `TypeError` (user objects are modelled as non-iterable;
iterable payloads are modelled with `seq`). -/
def as_seq : PyVal → Option (List PyVal)
  | .seq elems => some elems
  | .pystr s => some (s.data.map (fun c => .pystr c.toString))
  | _ => none

/-- Model of `get_slot(obj, slot)` (`kernel/slots.py`) as the builder uses
it: retrieve a readable slot of the value, `none` modelling the
`AttributeError` for a missing slot.  Dotted paths and argumentless bound
methods are modelled as pre-resolved entries of `slots`. -/
def get_slot (v : PyVal) (slot : String) : Option PyVal :=
  match v with
  | .obj _ _ slots => alookup slots slot
  | _ => none

/-- Graph nodes: the two per-graph sentinels and named call/slot nodes.
Call and slot node names always contain `":"` (see `node_name`), so they
never collide with the sentinel ids; the sentinels are therefore modelled
as distinguished constructors. -/
inductive Node where
  | input
  | output
  | call (name : String)
  deriving DecidableEq, Repr

/-- An edge of the multigraph, with its attribute data.  The `annot` field
is the `annotation` key attribute (`_add_object_edge`). -/
structure Edge where
  src : Node
  tgt : Node
  id : Option String := none
  sourceport : Option String := none
  targetport : Option String := none
  annot : Option String := none
  deriving DecidableEq, Repr

/-- Node attribute data (attributes no claim touches are elided, see the
section comment).  Ports map the port name to its `portkind`. -/
structure NodeData where
  module : Option String := none
  qual_name : Option String := none
  ports : List (String × String) := []
  annot : Option String := none
  annot_kind : Option String := none
  slot : Option String := none
  construct : Bool := false
  deriving DecidableEq, Repr

/-- A multigraph: nodes with data, edges in insertion order (the list
position plays the role of the `networkx` multi-edge key). -/
structure FlowGraph where
  nodes : List (String × NodeData) := []
  edges : List Edge := []
  deriving DecidableEq, Repr

/-- Modelled from the spec: `new_flow_graph` (not under the available
sources) creates a graph holding only the two sentinel nodes, which the
`Node` type provides implicitly. -/
def new_flow_graph : FlowGraph := {}

/-- A slot descriptor of an annotation's `inputs`/`outputs` lists: a
positional index or a named parameter. -/
inductive SlotRef where
  | pos (i : Nat)
  | named (s : String)
  deriving DecidableEq, Repr

/-- An annotation record as the builder reads it (`language`/`package`/`id`
feed `_annotation_key`; `inputs`/`outputs` list slot descriptors; `slots`
lists the names of annotated object slots, the `annotation_index` bookkeeping
being elided). -/
structure BNote where
  language : String := "python"
  package : String := ""
  id : String := ""
  inputs : List SlotRef := []
  outputs : List SlotRef := []
  slots : List String := []
  deriving DecidableEq, Repr

/-- Model of `FlowGraphBuilder._annotation_key`. -/
def annotation_key (note : BNote) : String :=
  note.language ++ "/" ++ note.package ++ "/" ++ note.id

/-- The identity of a callable, as the builder tests it:
`event.function is getattr` and `isinstance(event.function, type)`. -/
structure FuncId where
  name : String := ""
  isGetattr : Bool := false
  isType : Bool := false
  deriving DecidableEq, Repr

/-- The builder's collaborators (`annotator`) and settings, supplied as
parameters; the invariant claims hold for every behaviour of these. -/
structure Env where
  notate_function : FuncId → Option BNote
  notate_object : PyVal → Option BNote
  store_slots : Bool := true

/-- Model of `TraceCall` as the builder reads it. -/
structure CallE where
  function : FuncId := {}
  module_name : String := ""
  qual_name : String := ""
  atomic : Bool := true
  arguments : List (String × PyVal) := []
  argument_events : List (String × Nat) := []

/-- Model of `TraceFunctionEvent.full_name`. -/
def CallE.full_name (e : CallE) : String :=
  e.module_name ++ "." ++ e.qual_name

/-- Model of `TraceReturn` as the builder reads it.  `token` models the
event's identity (for the event table). -/
structure ReturnE where
  function : FuncId := {}
  module_name : String := ""
  qual_name : String := ""
  arguments : List (String × PyVal) := []
  value : PyVal := .pynone
  multiple_values : Bool := false
  token : Nat := 0

/-- Model of `TraceFunctionEvent.full_name`. -/
def ReturnE.full_name (e : ReturnE) : String :=
  e.module_name ++ "." ++ e.qual_name

/-- Model of `TraceAccess` (the accessed value itself is unused by the
builder; the event's identity is `token`). -/
structure AccessE where
  name : String := ""
  token : Nat := 0

/-- An assignment target: a plain name or a compound (destructuring)
pattern of names (deeper nesting is unsupported by the builder — a list is
not hashable as a variable-table key). -/
inductive NamePat where
  | single (s : String)
  | compound (names : List String)

/-- Model of `TraceAssign`: target pattern, assigned value, and the
originating value event (if the traced value was a boxed event). -/
structure AssignE where
  name : NamePat := .single ""
  value : PyVal := .pynone
  value_event : Option Nat := none

/-- A trace event, as pushed to `FlowGraphBuilder.push_event`. -/
inductive BEvent where
  | call (e : CallE)
  | ret (e : ReturnE)
  | access (e : AccessE)
  | assign (e : AssignE)
  | delete (name : String)

/-- Model of `_CallContext`: per-scope builder state. -/
structure CallContext where
  eventFullName : Option String := none
  node : String := ""
  graph : Option FlowGraph := none
  output_table : List (String × String × String) := []
  variable_table : List (String × String × String) := []
  event_table : List (Nat × String × String) := []

/-- Builder state: the per-base node-name counters and the context stack
(head of the list is the top of the stack). -/
structure BuilderState where
  node_names : List (String × Nat) := []
  stack : List CallContext := []

/-- Model of `FlowGraphBuilder.reset`: a single root context holding a
fresh flow graph. -/
def BuilderState.initial : BuilderState :=
  { node_names := [],
    stack := [{ graph := some new_flow_graph }] }

/-- Errors: the explicit `RuntimeError` raised by the builder, and `exn`
for any other uncaught Python exception (attribute/key/index/type errors,
assertion failures). -/
inductive BuildError where
  | runtimeError (msg : String)
  | exn
  deriving DecidableEq, Repr

/-- Model of `FlowGraphBuilder._node_name`: `base:count` with a per-base
running counter shared across the entire graph, nested graphs included. -/
def node_name (nn : List (String × Nat)) (base : String) :
    String × List (String × Nat) :=
  let count := (alookup nn base).getD 0 + 1
  (base ++ ":" ++ toString count, aset nn base count)

/-- Model of `FlowGraphBuilder._mutated_port_name`. -/
def mutated_port_name (arg_name : String) : String :=
  arg_name ++ "!"

/-- Model of `_IOSlots._name`: map a slot descriptor to an argument name
(an out-of-range positional index yields `None`). -/
def io_slot_name (arguments : List (String × PyVal)) : SlotRef → Option String
  | .pos i => (arguments.map Prod.fst).get? i
  | .named s => some s

/-- Model of `FlowGraphBuilder.is_pure`: pure unless the call is one of the
two canonical mutators acting on its receiver, or the annotation's
`outputs` name the argument. -/
def is_pure (qual_name : String) (arguments : List (String × PyVal))
    (ann : Option BNote) (arg_name : String) : Bool :=
  if (qual_name = "setattr" ∨ qual_name = "setitem") ∧
      (arg_name = "obj" ∨ arg_name = "0") then
    false
  else
    let outputs := match ann with
      | some n => n.outputs
      | none => []
    !(outputs.any (fun sl => io_slot_name arguments sl == some arg_name))

/-- Model of `FlowGraphBuilder._get_ports_data` restricted to what claims
observe: each `(name, portname)` pair contributes the port `portname` with
the supplied `portkind` (per-port value/id/annotation data elided). -/
def get_ports_data (portkind : String) (names : List (String × String)) :
    List (String × String) :=
  names.foldl (fun ports np => aset ports np.2 portkind) []

/-- Model of the mutated-ports comprehension of
`_update_call_node_for_return` (`[(arg_name, self._mutated_port_name(
arg_name)) for arg_name in event.arguments if not is_pure(...)]`): one
`(argument name, mutated port name)` pair per impure argument. -/
def mutated_port_list (ev : ReturnE) (ann : Option BNote) :
    List (String × String) :=
  (ev.arguments.filter (fun p => !is_pure ev.qual_name ev.arguments ann p.1)).map
    (fun p => (p.1, mutated_port_name p.1))

/-- Model of `FlowGraphBuilder._add_object_edge`. -/
def add_object_edge (env : Env) (g : FlowGraph) (obj : PyVal)
    (src tgt : Node) (objId : Option String)
    (sourceport targetport : Option String) : FlowGraph :=
  { g with edges := g.edges ++
      [{ src := src, tgt := tgt, id := objId, sourceport := sourceport,
         targetport := targetport,
         annot := (env.notate_object obj).map annotation_key }] }

/-- Model of `networkx.MultiDiGraph.remove_node`: drop the node and every
incident edge. -/
def remove_node (g : FlowGraph) (node : String) : FlowGraph :=
  { nodes := g.nodes.filter (fun p => !(p.1 == node)),
    edges := g.edges.filter
      (fun e => !(e.src == Node.call node || e.tgt == Node.call node)) }

/-- Model of `MultiDiGraph.remove_edge(old, output_node, key=keys[0])`
where `keys[0]` is the (unique, by the assertion) key of an edge from `old`
to the output sentinel carrying `obj_id`: remove the first such edge. -/
def remove_output_edge (edges : List Edge) (old : String) (obj_id : String) :
    List Edge :=
  match edges with
  | [] => []
  | e :: rest =>
    if e.src == Node.call old && e.tgt == Node.output && e.id == some obj_id
    then rest
    else e :: remove_output_edge rest old obj_id

/-- Slot names of an object's annotation, in annotation order
(`note.get('slots', [])`, each `slot_def['slot']`). -/
def note_slots (note : Option BNote) : List String :=
  match note with
  | some n => n.slots
  | none => []

/-- Association-list lookup returns a value stored in the list. -/
theorem alookup_mem {α β : Type} [BEq α] {l : List (α × β)} {k : α} {v : β}
    (h : alookup l k = some v) : ∃ k', (k', v) ∈ l := by
  unfold alookup at h
  cases hf : l.find? (fun p => p.1 == k) with
  | none => rw [hf] at h; exact absurd h (by simp)
  | some p =>
    rw [hf] at h
    have hmem := List.mem_of_find?_eq_some hf
    exact ⟨p.1, by
      have : p.2 = v := by injection h
      subst this
      exact hmem⟩

/-- A slot value is structurally smaller than the object carrying it. -/
theorem sizeOf_get_slot {v w : PyVal} {slot : String}
    (h : get_slot v slot = some w) : sizeOf w < sizeOf v := by
  cases v with
  | pynone => simp [get_slot] at h
  | pystr s => simp [get_slot] at h
  | seq elems => simp [get_slot] at h
  | obj objid ignorable slots =>
    unfold get_slot at h
    obtain ⟨k', hmem⟩ := alookup_mem h
    have h1 : sizeOf (k', w) < sizeOf slots := List.sizeOf_lt_of_mem hmem
    have h2 : sizeOf w < sizeOf (k', w) := by simp
    have h3 : sizeOf slots < sizeOf (PyVal.obj objid ignorable slots) := by
      simp
    omega

mutual

/-- Model of `FlowGraphBuilder._set_object_output_node`: remove the old
provider's edge to the output sentinel (crashing — `None` — when
`get_edge_data` yields nothing, when an edge lacks an `id`, or when the
`assert len(keys) == 1` fails), record the new provider, add the new edge,
and, when `store_slots` is set, capture the object's annotated slots. -/
def set_object_output_node (env : Env) (nn : List (String × Nat))
    (g : FlowGraph) (outT : List (String × String × String)) (obj : PyVal)
    (obj_id : String) (node port : String) :
    Option (List (String × Nat) × FlowGraph × List (String × String × String)) :=
  let removed? : Option FlowGraph :=
    match alookup outT obj_id with
    | some (old, _) =>
      let pairEdges := g.edges.filter
        (fun e => e.src == Node.call old && e.tgt == Node.output)
      if pairEdges.isEmpty then
        none          -- get_edge_data returned None; None.items() raises
      else if pairEdges.any (fun e => e.id == none) then
        none          -- data['id'] raises KeyError
      else if (pairEdges.filter (fun e => e.id == some obj_id)).length = 1 then
        some { g with edges := remove_output_edge g.edges old obj_id }
      else
        none          -- assert len(keys) == 1
    | none => some g
  match removed? with
  | none => none
  | some g1 =>
    let outT' := aset outT obj_id (node, port)
    let g2 := add_object_edge env g1 obj (.call node) .output (some obj_id)
      (some port) none
    if env.store_slots then
      add_object_slots_go env nn g2 outT' obj obj_id node port
        ((env.notate_object obj).map annotation_key)
        (note_slots (env.notate_object obj))
    else
      some (nn, g2, outT')
termination_by (sizeOf obj, 1, 0)
decreasing_by
  all_goals simp_wf
  all_goals apply Prod.Lex.right
  all_goals apply Prod.Lex.left
  all_goals omega

/-- Model of the loop of `FlowGraphBuilder._add_object_slots`: for each
annotated slot (remaining names in `pending`), fetch the slot value
(`AttributeError` skips the slot), synthesise the `slot:<name>` node and the
edge from the provider, and recursively set a trackable slot value as the
slot node's output. -/
def add_object_slots_go (env : Env) (nn : List (String × Nat))
    (g : FlowGraph) (outT : List (String × String × String)) (obj : PyVal)
    (obj_id : String) (node port : String) (noteKey : Option String)
    (pending : List String) :
    Option (List (String × Nat) × FlowGraph × List (String × String × String)) :=
  match pending with
  | [] => some (nn, g, outT)
  | slot :: rest =>
    match hslot : get_slot obj slot with
    | none => add_object_slots_go env nn g outT obj obj_id node port noteKey rest
    | some slot_value =>
      let (slot_node, nn1) := node_name nn ("slot:" ++ slot)
      let data : NodeData :=
        { slot := some slot, annot := noteKey, annot_kind := some "slot",
          ports := [("self", "input"), ("return", "output")] }
      let g1 : FlowGraph := { g with nodes := aset g.nodes slot_node data }
      let g2 := add_object_edge env g1 obj (.call node) (.call slot_node)
        (some obj_id) (some port) (some "self")
      match maybe_track slot_value with
      | some slot_id =>
        match set_object_output_node env nn1 g2 outT slot_value slot_id
            slot_node "return" with
        | none => none
        | some (nn2, g3, outT2) =>
          add_object_slots_go env nn2 g3 outT2 obj obj_id node port noteKey rest
      | none =>
        add_object_slots_go env nn1 g2 outT obj obj_id node port noteKey rest
termination_by (sizeOf obj, 0, pending.length)
decreasing_by
  all_goals simp_wf
  all_goals
    first
    | (apply Prod.Lex.left; exact sizeOf_get_slot hslot)
    | (apply Prod.Lex.right
       first
       | (apply Prod.Lex.left; omega)
       | (apply Prod.Lex.right; simp)
       | omega)
    | omega

end

/-- Model of `FlowGraphBuilder._add_call_node` given the fresh node name
(the `_node_name` counter step is performed by the caller): input ports are
the argument names; the annotation fields are set when an annotation was
found. -/
def add_call_node (g : FlowGraph) (node : String) (ev : CallE)
    (ann : Option BNote) : FlowGraph :=
  let data : NodeData :=
    { module := some ev.module_name,
      qual_name := some ev.qual_name,
      ports := get_ports_data "input" (ev.arguments.map (fun p => (p.1, p.1))),
      annot := ann.map annotation_key,
      annot_kind := ann.map (fun _ => "function") }
  { g with nodes := aset g.nodes node data }

/-- Model of `FlowGraphBuilder._add_call_in_edge`: resolve the source of an
argument via the output table (tracked objects) or the event table
(value-bearing events), add the edge if a source is known, and otherwise
mark a tracked argument as an unknown input (an edge from the `INPUT`
sentinel). -/
def add_call_in_edge (env : Env) (g : FlowGraph)
    (outT : List (String × String × String))
    (evT : List (Nat × String × String)) (ev : CallE) (node : String)
    (arg_name : String) (arg : PyVal) : FlowGraph :=
  let arg_id := maybe_track arg
  let arg_event := alookup ev.argument_events arg_name
  let source : Option (String × String) :=
    match arg_id with
    | some i =>
      match alookup outT i with
      | some p => some p
      | none => arg_event.bind (fun t => alookup evT t)
    | none => arg_event.bind (fun t => alookup evT t)
  match source with
  | some (src, src_port) =>
    add_object_edge env g arg (.call src) (.call node) arg_id (some src_port)
      (some arg_name)
  | none =>
    match arg_id with
    | some i =>
      add_object_edge env g arg .input (.call node) (some i) none (some arg_name)
    | none => g

/-- Model of `FlowGraphBuilder._push_call_event`: create the call node and
its in-edges in the enclosing context's graph (crashing when that graph is
`None`, i.e. inside an atomic scope), attach a fresh nested graph when the
call is not atomic, and push the new context. -/
def push_call_event (env : Env) (st : BuilderState) (ev : CallE) :
    Option BuilderState :=
  match st.stack with
  | [] => none
  | context :: rest =>
    match context.graph with
    | none => none
    | some g =>
      let ann := env.notate_function ev.function
      let (node, nn1) := node_name st.node_names ev.qual_name
      let g1 := add_call_node g node ev ann
      let g2 := ev.arguments.foldl
        (fun g' p =>
          add_call_in_edge env g' context.output_table context.event_table
            ev node p.1 p.2)
        g1
      let nested : Option FlowGraph :=
        if !ev.atomic then some new_flow_graph else none
      -- `graph.nodes[node]['graph'] = nested` aliases the pushed context's
      -- graph while the scope is open; the node attribute is elided here
      -- since nothing reads it before the scope closes.
      let parent := { context with graph := some g2 }
      let newCtx : CallContext :=
        { eventFullName := some ev.full_name, node := node, graph := nested }
      some { node_names := nn1, stack := newCtx :: parent :: rest }

/-- Model of `FlowGraphBuilder._update_getattr_node_for_return`: record the
looked-up attribute as the node's `slot`, with annotation data when the
receiver's annotation describes that slot.  Crashes (`none`) when the call
has fewer than two arguments. -/
def update_getattr_node (env : Env) (ev : ReturnE) (data : NodeData) :
    Option NodeData :=
  match ev.arguments.map Prod.snd with
  | objv :: namev :: _ =>
    let nameStr : Option String :=
      match namev with
      | .pystr s => some s
      | _ => none
    let note := env.notate_object objv
    some
      (match note, nameStr with
       | some n, some s =>
         if n.slots.contains s then
           { data with
             slot := some s, annot := some (annotation_key n),
             annot_kind := some "slot" }
         else { data with slot := nameStr }
       | _, _ => { data with slot := nameStr })
  | _ => none

/-- Model of `FlowGraphBuilder._update_constructor_node_for_return`. -/
def update_constructor_node (env : Env) (ev : ReturnE) (data : NodeData) :
    NodeData :=
  match env.notate_object ev.value with
  | some n =>
    { data with
      annot := some (annotation_key n),
      annot_kind := some "construct" }
  | none => { data with construct := true }

/-- The output-port name list computed by
`FlowGraphBuilder._update_call_node_for_return`: `return.i` per element
when `multiple_values` is set (`None` when `len` fails on the payload),
`return` when the payload is not `None`, nothing otherwise; plus one
mutated port per impure argument. -/
def output_port_names (ev : ReturnE) (ann : Option BNote) :
    Option (List (String × String)) :=
  let return_ports? : Option (List (String × String)) :=
    if ev.multiple_values then
      (as_seq ev.value).map (fun elems =>
        (List.range elems.length).map (fun i =>
          ("return." ++ toString i, "return." ++ toString i)))
    else
      match ev.value with
      | .pynone => some []
      | _ => some [("return", "return")]
  return_ports?.map (fun ports =>
    ports ++ ((ev.arguments.filter
        (fun p => !is_pure ev.qual_name ev.arguments ann p.1)).map
      (fun p => (p.1, mutated_port_name p.1))))

/-- Model of `FlowGraphBuilder._update_call_node_for_return`: apply the
`getattr`/constructor specials when the call has no annotation, then merge
the output ports into the node's port map. -/
def update_call_node_for_return (env : Env) (g : FlowGraph) (ev : ReturnE)
    (ann : Option BNote) (node : String) : Option FlowGraph :=
  match alookup g.nodes node with
  | none => none
  | some data =>
    let data1? : Option NodeData :=
      if ann.isNone then
        if ev.function.isGetattr then update_getattr_node env ev data
        else if ev.function.isType then some (update_constructor_node env ev data)
        else some data
      else some data
    match data1? with
    | none => none
    | some data1 =>
      match output_port_names ev ann with
      | none => none
      | some port_names =>
        let ports' := aupdate data1.ports (get_ports_data "output" port_names)
        some { g with nodes := aset g.nodes node { data1 with ports := ports' } }

/-- The body of `FlowGraphBuilder._push_return_event` after the sanity
check: the `getattr` removal special, the output updates for return values
and mutated arguments, the event-table update, and the node/port update.
Returns the updated name counters and parent context. -/
def push_return_core (env : Env) (nn : List (String × Nat)) (g : FlowGraph)
    (parent : CallContext) (ev : ReturnE) (node : String) :
    Option (List (String × Nat) × CallContext) :=
  if ev.function.isGetattr && is_attribute_ignorable ev.value then
    some (nn, { parent with graph := some (remove_node g node) })
  else do
    let step1 ←
      if ev.multiple_values then do
        let elems ← as_seq ev.value
        elems.enum.foldlM
          (fun (acc : List (String × Nat) × FlowGraph ×
              List (String × String × String)) iv => do
            let (nn', g', outT') := acc
            match maybe_track iv.2 with
            | some vid =>
              set_object_output_node env nn' g' outT' iv.2 vid node
                ("return." ++ toString iv.1)
            | none => pure (nn', g', outT'))
          (nn, g, parent.output_table)
      else
        match maybe_track ev.value with
        | some rid =>
          set_object_output_node env nn g parent.output_table ev.value rid
            node "return"
        | none => pure (nn, g, parent.output_table)
    let ann := env.notate_function ev.function
    let step2 ← ev.arguments.foldlM
      (fun (acc : List (String × Nat) × FlowGraph ×
          List (String × String × String)) p => do
        let (nn', g', outT') := acc
        match get_id p.2 with
        | some aid =>
          if !is_pure ev.qual_name ev.arguments ann p.1 then
            set_object_output_node env nn' g' outT' p.2 aid node
              (mutated_port_name p.1)
          else pure (nn', g', outT')
        | none => pure (nn', g', outT'))
      step1
    let (nn2, g2, outT2) := step2
    let evT := aset parent.event_table ev.token (node, "return")
    let g3 ← update_call_node_for_return env g2 ev ann node
    pure (nn2, { parent with
      graph := some g3, output_table := outT2,
      event_table := evT })

/-- Model of `FlowGraphBuilder._push_return_event`: pop the context, check
the full names match (raising the `RuntimeError` otherwise), and run the
rest of the return processing on the enclosing context. -/
def push_return_event (env : Env) (st : BuilderState) (ev : ReturnE) :
    Except BuildError BuilderState :=
  match st.stack with
  | [] => .error .exn        -- pop from an empty deque
  | context :: rest =>
    match context.eventFullName with
    | none => .error .exn    -- context.event is None: AttributeError
    | some fn =>
      if fn ≠ ev.full_name then .error (.runtimeError "Mismatched trace events")
      else
        match rest with
        | [] => .error .exn  -- self._stack[-1] on an empty deque
        | parent :: rest' =>
          match parent.graph with
          | none => .error .exn
          | some g =>
            match push_return_core env st.node_names g parent ev context.node with
            | none => .error .exn
            | some (nn', parent') =>
              .ok { node_names := nn', stack := parent' :: rest' }

/-- Model of `FlowGraphBuilder._push_access_event`: when the accessed name
is in the variable table, record its provider in the event table under this
event. -/
def push_access_event (st : BuilderState) (ev : AccessE) :
    Option BuilderState :=
  match st.stack with
  | [] => none
  | context :: rest =>
    let context' :=
      match alookup context.variable_table ev.name with
      | some source =>
        { context with event_table := aset context.event_table ev.token source }
      | none => context
    some { st with stack := context' :: rest }

/-- Model of `FlowGraphBuilder._push_assign_event`: resolve the value's
provider through the output table (tracked values) or the event table
(value-bearing events), and bind each target name; a compound target
resolves per position, suffixing `.<i>` to an event-table source port. -/
def push_assign_event (st : BuilderState) (ev : AssignE) :
    Option BuilderState :=
  match st.stack with
  | [] => none
  | context :: rest =>
    match ev.name with
    | .single name =>
      let value_id := get_id ev.value
      let source : Option (String × String) :=
        match value_id.bind (alookup context.output_table) with
        | some s => some s
        | none =>
          match ev.value_event with
          | some t => alookup context.event_table t
          | none => none
      let context' :=
        match source with
        | some s =>
          { context with variable_table := aset context.variable_table name s }
        | none => context
      some { st with stack := context' :: rest }
    | .compound names => do
      let elems ← as_seq ev.value   -- value[i] on a non-indexable raises
      let context' ← names.enum.foldlM
        (fun (ctx : CallContext) (p : Nat × String) => do
          let v ← elems.get? p.1    -- IndexError
          let value_id := get_id v
          let source : Option (String × String) :=
            match value_id.bind (alookup ctx.output_table) with
            | some s => some s
            | none =>
              match ev.value_event with
              | some t =>
                (alookup ctx.event_table t).map
                  (fun sp => (sp.1, sp.2 ++ "." ++ toString p.1))
              | none => none
          pure
            (match source with
             | some s =>
               { ctx with variable_table := aset ctx.variable_table p.2 s }
             | none => ctx))
        context
      pure { st with stack := context' :: rest }

/-- Model of `FlowGraphBuilder._push_delete_event`. -/
def push_delete_event (st : BuilderState) (name : String) :
    Option BuilderState :=
  match st.stack with
  | [] => none
  | context :: rest =>
    some { st with stack :=
      { context with variable_table := aremove context.variable_table name }
        :: rest }

/-- Lift an `Option`-modelled handler into the stepping relation (a `none`
is an uncaught Python exception). -/
def opt_step : Option BuilderState → Except BuildError BuilderState
  | some s => .ok s
  | none => .error .exn

/-- Model of `FlowGraphBuilder.push_event`. -/
def push_event (env : Env) (st : BuilderState) :
    BEvent → Except BuildError BuilderState
  | .call e => opt_step (push_call_event env st e)
  | .ret e => push_return_event env st e
  | .access e => opt_step (push_access_event st e)
  | .assign e => opt_step (push_assign_event st e)
  | .delete n => opt_step (push_delete_event st n)

/-- Push a whole event stream, stopping at the first uncaught exception. -/
def push_events (env : Env) (st : BuilderState) :
    List BEvent → Except BuildError BuilderState
  | [] => .ok st
  | e :: rest =>
    match push_event env st e with
    | .ok st' => push_events env st' rest
    | .error err => .error err

/-- The edges of the graph into the `OUTPUT` sentinel that carry object
identifier `x`. -/
def outputEdges (edges : List Edge) (x : String) : List Edge :=
  edges.filter (fun e => e.tgt == Node.output && e.id == some x)

/-- Table-edge correspondence: every edge into the `OUTPUT` sentinel
carries an identifier and comes from the provider the output table records
for that identifier. -/
def TableInv (edges : List Edge)
    (outT : List (String × String × String)) : Prop :=
  ∀ e ∈ edges, e.tgt = Node.output →
    ∃ x n p, e.id = some x ∧ e.src = Node.call n ∧ e.sourceport = some p ∧
      alookup outT x = some (n, p)

/-- The claimed invariant: for every object identifier, at most one edge
into the `OUTPUT` sentinel carries it. -/
def CountInv (edges : List Edge) : Prop :=
  ∀ x, (outputEdges edges x).length ≤ 1

/-- Both invariants for a context's graph (vacuous for an atomic scope,
whose context holds no graph). -/
def CtxInv (ctx : CallContext) : Prop :=
  ∀ g, ctx.graph = some g → TableInv g.edges ctx.output_table ∧ CountInv g.edges

/-- Both invariants for every context on the builder's stack. -/
def StInv (st : BuilderState) : Prop :=
  ∀ ctx ∈ st.stack, CtxInv ctx

/-- Claim C1's property of a build outcome: in every scope of the resulting
state, each object identifier is carried by at most one edge into that
scope's `OUTPUT` sentinel.  (An aborted build has no resulting state.) -/
def OutputUnique (r : Except BuildError BuilderState) : Prop :=
  match r with
  | .ok st => ∀ ctx ∈ st.stack, ∀ g, ctx.graph = some g →
      ∀ x, (outputEdges g.edges x).length ≤ 1
  | .error _ => True

end Builder

/-! ## Association-list lemma kit -/

theorem alookup_nil {α β : Type} [BEq α] (k : α) :
    alookup ([] : List (α × β)) k = none := rfl

theorem alookup_cons {α β : Type} [BEq α] (p : α × β) (rest : List (α × β))
    (k : α) :
    alookup (p :: rest) k = if p.1 == k then some p.2 else alookup rest k := by
  unfold alookup
  cases h : p.1 == k <;> simp [List.find?, h]

theorem aset_cons {α β : Type} [BEq α] (p : α × β) (rest : List (α × β))
    (k : α) (v : β) :
    aset (p :: rest) k v =
      if p.1 == k then (p.1, v) :: rest else p :: aset rest k v := by
  cases p
  rfl

theorem aremove_cons {α β : Type} [BEq α] (p : α × β) (rest : List (α × β))
    (k : α) :
    aremove (p :: rest) k = if p.1 == k then rest else p :: aremove rest k := by
  cases p
  rfl

theorem alookup_aset_self {α β : Type} [BEq α] [LawfulBEq α]
    (l : List (α × β)) (k : α) (v : β) : alookup (aset l k v) k = some v := by
  induction l with
  | nil => simp [aset, alookup_cons]
  | cons p rest ih =>
    rw [aset_cons]
    by_cases hp : p.1 = k
    · simp [hp, alookup_cons]
    · simp [beq_eq_false_iff_ne.mpr hp, alookup_cons, ih]

theorem alookup_aset_ne {α β : Type} [BEq α] [LawfulBEq α]
    {k' k : α} (l : List (α × β)) (v : β) (h : k' ≠ k) :
    alookup (aset l k v) k' = alookup l k' := by
  have hkk : (k == k') = false := beq_eq_false_iff_ne.mpr (Ne.symm h)
  induction l with
  | nil => simp [aset, alookup_cons, alookup_nil, hkk]
  | cons p rest ih =>
    rw [aset_cons]
    by_cases hp : p.1 = k
    · simp [hp, alookup_cons, hkk]
    · simp [beq_eq_false_iff_ne.mpr hp, alookup_cons, ih]

theorem mem_keys_aset {α β : Type} [BEq α] [LawfulBEq α]
    {a : α} {l : List (α × β)} {k : α} {v : β}
    (h : a ∈ (aset l k v).map Prod.fst) : a = k ∨ a ∈ l.map Prod.fst := by
  induction l with
  | nil => simp [aset] at h; exact Or.inl h
  | cons p rest ih =>
    rw [aset_cons] at h
    by_cases hp : p.1 = k
    · rw [if_pos (by simp [hp])] at h
      simp at h
      rcases h with h | ⟨b, hb⟩
      · exact Or.inl (hp ▸ h)
      · exact Or.inr (by simp; exact Or.inr ⟨b, hb⟩)
    · rw [if_neg (by simp [hp])] at h
      simp at h
      rcases h with h | ⟨b, hb⟩
      · exact Or.inr (by simp [h])
      · rcases ih (show a ∈ (aset rest k v).map Prod.fst by
          simp; exact ⟨b, hb⟩) with h' | h'
        · exact Or.inl h'
        · simp at h'
          obtain ⟨c, hc⟩ := h'
          exact Or.inr (by simp; exact Or.inr ⟨c, hc⟩)

theorem mem_keys_aset_self {α β : Type} [BEq α] [LawfulBEq α]
    (l : List (α × β)) (k : α) (v : β) : k ∈ (aset l k v).map Prod.fst := by
  induction l with
  | nil => simp [aset]
  | cons p rest ih =>
    rw [aset_cons]
    by_cases hp : p.1 = k
    · simp [hp]
    · rw [if_neg (by simp [hp])]
      simpa using Or.inr ih

theorem keys_aset_sup {α β : Type} [BEq α] [LawfulBEq α]
    {a : α} {l : List (α × β)} (k : α) (v : β)
    (h : a ∈ l.map Prod.fst) : a ∈ (aset l k v).map Prod.fst := by
  induction l with
  | nil => simp at h
  | cons p rest ih =>
    rw [aset_cons]
    by_cases hp : p.1 = k
    · rw [if_pos (by simp [hp])]
      simp at h ⊢
      rcases h with h | h
      · exact Or.inl (hp ▸ h)
      · exact Or.inr h
    · rw [if_neg (by simp [hp])]
      simp at h ⊢
      rcases h with h | h
      · exact Or.inl h
      · exact Or.inr (by simpa using ih (by simpa using h))

theorem nodup_keys_aset {α β : Type} [BEq α] [LawfulBEq α]
    {l : List (α × β)} (k : α) (v : β)
    (h : (l.map Prod.fst).Nodup) : ((aset l k v).map Prod.fst).Nodup := by
  induction l with
  | nil => simp [aset]
  | cons p rest ih =>
    rw [aset_cons]
    rw [List.map_cons, List.nodup_cons] at h
    by_cases hp : p.1 = k
    · rw [if_pos (by simp [hp])]
      rw [List.map_cons, List.nodup_cons]
      exact ⟨h.1, h.2⟩
    · rw [if_neg (by simp [hp])]
      rw [List.map_cons, List.nodup_cons]
      refine ⟨fun hmem => ?_, ih h.2⟩
      rcases mem_keys_aset hmem with h' | h'
      · exact hp h'
      · exact h.1 h'

theorem alookup_eq_none_of_not_mem {α β : Type} [BEq α] [LawfulBEq α]
    {l : List (α × β)} {k : α} (h : k ∉ l.map Prod.fst) :
    alookup l k = none := by
  induction l with
  | nil => rfl
  | cons p rest ih =>
    rw [List.map_cons, List.mem_cons] at h
    push_neg at h
    rw [alookup_cons, if_neg (by simp; exact fun he => h.1 he.symm)]
    exact ih h.2

theorem alookup_aremove_self {α β : Type} [BEq α] [LawfulBEq α]
    {l : List (α × β)} (k : α) (h : (l.map Prod.fst).Nodup) :
    alookup (aremove l k) k = none := by
  induction l with
  | nil => rfl
  | cons p rest ih =>
    rw [List.map_cons, List.nodup_cons] at h
    rw [aremove_cons]
    by_cases hp : p.1 = k
    · rw [if_pos (by simp [hp])]
      exact alookup_eq_none_of_not_mem (hp ▸ h.1)
    · rw [if_neg (by simp [hp]), alookup_cons,
        if_neg (by simp; exact fun he => hp he)]
      exact ih h.2

theorem aset_fresh {α β : Type} [BEq α] [LawfulBEq α]
    {l : List (α × β)} {k : α} (v : β) (h : k ∉ l.map Prod.fst) :
    aset l k v = l ++ [(k, v)] := by
  induction l with
  | nil => rfl
  | cons p rest ih =>
    rw [List.map_cons, List.mem_cons] at h
    push_neg at h
    rw [aset_cons, if_neg (by simp; exact fun he => h.1 he.symm)]
    rw [ih h.2]
    simp

theorem aupdate_cons {α β : Type} [BEq α] (l : List (α × β)) (p : α × β)
    (rest : List (α × β)) :
    aupdate l (p :: rest) = aupdate (aset l p.1 p.2) rest := by
  simp [aupdate]

theorem aupdate_fresh {α β : Type} [BEq α] [LawfulBEq α] :
    ∀ (new l : List (α × β)),
    (new.map Prod.fst).Nodup →
    (∀ a ∈ new.map Prod.fst, a ∉ l.map Prod.fst) →
    aupdate l new = l ++ new := by
  intro new
  induction new with
  | nil => intro l _ _; simp [aupdate]
  | cons p rest ih =>
    intro l hnodup hfresh
    rw [List.map_cons, List.nodup_cons] at hnodup
    rw [aupdate_cons, aset_fresh p.2
      (hfresh p.1 (by rw [List.map_cons]; exact List.mem_cons_self _ _))]
    rw [ih (l ++ [(p.1, p.2)]) hnodup.2 ?fresh]
    · simp
    case fresh =>
      intro a ha hmem
      rw [List.map_append, List.mem_append] at hmem
      rcases hmem with hmem | hmem
      · exact hfresh a (by rw [List.map_cons]; exact List.mem_cons_of_mem _ ha)
          hmem
      · simp at hmem
        exact hnodup.1 (hmem ▸ ha)

theorem alookup_aupdate_not_mem {α β : Type} [BEq α] [LawfulBEq α] :
    ∀ (new l : List (α × β)) (k : α), k ∉ new.map Prod.fst →
    alookup (aupdate l new) k = alookup l k := by
  intro new
  induction new with
  | nil => intro l k _; simp [aupdate]
  | cons p rest ih =>
    intro l k h
    rw [List.map_cons, List.mem_cons] at h
    push_neg at h
    rw [aupdate_cons, ih _ _ h.2]
    exact alookup_aset_ne _ _ h.1

theorem alookup_aupdate_const {α β : Type} [BEq α] [LawfulBEq α] :
    ∀ (new l : List (α × β)) (k : α) (v : β),
    (∀ p ∈ new, p.2 = v) → k ∈ new.map Prod.fst →
    alookup (aupdate l new) k = some v := by
  intro new
  induction new with
  | nil => intro l k v _ h; simp at h
  | cons p rest ih =>
    intro l k v hconst hmem
    rw [aupdate_cons]
    by_cases hk : k ∈ rest.map Prod.fst
    · exact ih _ _ _ (fun q hq => hconst q (by simp [hq])) hk
    · have hkp : k = p.1 := by
        rw [List.map_cons, List.mem_cons] at hmem
        rcases hmem with hmem | hmem
        · exact hmem
        · exact absurd hmem hk
      subst hkp
      rw [alookup_aupdate_not_mem _ _ _ hk, alookup_aset_self]
      rw [hconst p (by simp)]

/-! ## Claims about the object tracker -/

/-- C3, counterexample.  The claim states that `is_trackable` agrees with
the spec's notion (weak-referenceable and not a free function, bound method
or module-like value), and in particular returns `false` on module-like
values.  The code only rejects `types.FunctionType` and `types.MethodType`;
modules are weak-referenceable, so `is_trackable` returns `true` on a
module, refuting the claim at that input. -/
theorem claim_C3_counterexample :
    ObjectTracker.is_trackable { addr := 0, kind := PyKind.module } = true ∧
    ObjectTracker.trackableSpec { addr := 0, kind := PyKind.module } = false := by
  decide

/-- C3, amended: a value is trackable iff a weak reference to it can be
created and it is not a free function or bound method; module-like values
(weak-referenceable, and not excluded by the `isinstance` test) are
trackable. -/
theorem claim_C3_amended (obj : PyObj) :
    ObjectTracker.is_trackable obj =
      (weakrefable obj.kind &&
        !(obj.kind = PyKind.function ∨ obj.kind = PyKind.method : Bool)) := by
  cases obj with
  | mk addr kind => cases kind <;> rfl

/-- C8, counterexample.  The claim states that `track` silently rejects an
untrackable value without raising; the code raises a `TypeError` (the
`.error` outcome) on, e.g., a small integer. -/
theorem claim_C8_counterexample :
    ObjectTracker.track ObjectTracker.State.initial { addr := 7, kind := PyKind.int }
      = (.error "Cannot track object of type", ObjectTracker.State.initial) := by
  rfl

/-- C8, amended: for every untrackable value, `track` raises a `TypeError`;
it takes no strong (or weak) reference and leaves the value untracked, the
tracker state being unchanged, because the raise precedes any mutation. -/
theorem claim_C8_amended (s : ObjectTracker.State) (obj : PyObj)
    (h : ObjectTracker.is_trackable obj = false) :
    ObjectTracker.track s obj = (.error "Cannot track object of type", s) := by
  unfold ObjectTracker.track
  rw [h]
  rfl

/-- Witness for C8's amended theorem at a concrete input. -/
theorem claim_C8_witness :
    ObjectTracker.is_trackable { addr := 7, kind := PyKind.int } = false ∧
    ObjectTracker.track ObjectTracker.State.initial { addr := 7, kind := PyKind.int }
      = (.error "Cannot track object of type", ObjectTracker.State.initial) :=
  ⟨by decide, claim_C8_amended _ _ (by decide)⟩

/-- C6: tracking a live value a second time returns the identifier of the
first call (and leaves the state unchanged); once the value is reclaimed
(the finalizer having removed both map entries), `get_object` on its
identifier returns `None`.  The `Nodup` hypothesis says the tracker's
id-to-weakref map binds each identifier once, as every reachable tracker
state does. -/
theorem claim_C6 (s : ObjectTracker.State) (obj : PyObj) (i : String)
    (s' : ObjectTracker.State)
    (hnodup : (s.ref_map.map Prod.fst).Nodup)
    (htrack : ObjectTracker.track s obj = (.ok i, s')) :
    ObjectTracker.track s' obj = (.ok i, s') ∧
    ObjectTracker.get_object (ObjectTracker.reclaim s' obj.addr i) i = none := by
  unfold ObjectTracker.track at htrack
  by_cases htr : ObjectTracker.is_trackable obj = false
  · rw [htr] at htrack
    simp at htrack
  · have htr' : ObjectTracker.is_trackable obj = true := by
      cases hv : ObjectTracker.is_trackable obj
      · exact absurd hv htr
      · rfl
    rw [htr'] at htrack
    simp at htrack
    cases hmem : alookup s.mem_map obj.addr with
    | some j =>
      rw [hmem] at htrack
      simp at htrack
      obtain ⟨hij, hss⟩ := htrack
      constructor
      · unfold ObjectTracker.track
        simp [htr', hmem, ← hss, hij]
      · unfold ObjectTracker.get_object ObjectTracker.reclaim
        rw [← hss]
        exact alookup_aremove_self i hnodup
    | none =>
      rw [hmem] at htrack
      simp at htrack
      obtain ⟨hij, hss⟩ := htrack
      constructor
      · unfold ObjectTracker.track
        simp [htr', ← hss, alookup_aset_self, hij]
      · unfold ObjectTracker.get_object ObjectTracker.reclaim
        rw [← hss, ← hij]
        exact alookup_aremove_self _ (nodup_keys_aset _ _ hnodup)

/-- Witness for C6 at a concrete input: tracking a fresh instance twice. -/
theorem claim_C6_witness :
    (((ObjectTracker.State.initial.ref_map.map Prod.fst).Nodup) ∧
      ObjectTracker.track ObjectTracker.State.initial
        { addr := 3, kind := PyKind.instance' }
        = (.ok "1", { mem_map := [(3, "1")], ref_map := [("1", 3)], id_count := 1 })) ∧
    (ObjectTracker.track
        { mem_map := [(3, "1")], ref_map := [("1", 3)], id_count := 1 }
        { addr := 3, kind := PyKind.instance' }
      = (.ok "1", { mem_map := [(3, "1")], ref_map := [("1", 3)], id_count := 1 }) ∧
     ObjectTracker.get_object
        (ObjectTracker.reclaim
          { mem_map := [(3, "1")], ref_map := [("1", 3)], id_count := 1 } 3 "1") "1"
      = none) :=
  ⟨⟨by simp [ObjectTracker.State.initial], by rfl⟩,
    claim_C6 ObjectTracker.State.initial { addr := 3, kind := PyKind.instance' }
      "1" _ (by simp [ObjectTracker.State.initial]) (by rfl)⟩

/-! ## Claims about the annotator -/

/-- C10: `Annotator.notate_function` raises a `TypeError` on every
non-callable value, and returns the looked-up record (possibly none) on
every callable one. -/
theorem claim_C10 (lookup : Option Annotator.Note) :
    Annotator.notate_function false lookup
      = .error "Attempt to annotate non-callable as function" ∧
    Annotator.notate_function true lookup = .ok lookup :=
  ⟨rfl, rfl⟩

/-- C7: type-annotation resolution under the partial order "A precedes B
iff every class in A is a superclass of some class in B".  For a hierarchy
`A <: B` (`sub A B`, not `sub B A`) and matching records `recA` (declaring
`A`) and `recB` (declaring `B`), the record declaring the subclass wins in
either encounter order; and for a pair of records where the second does not
dominate the first, the first is returned — an order-determined but
deterministic choice. -/
theorem claim_C7 (sub : String → String → Bool) (subclassNames : List String)
    (A B : String) (recA recB : Annotator.Note)
    (hA : recA.classes = [A]) (hB : recB.classes = [B])
    (hAB : sub A B = true) (hBA : sub B A = false)
    (hAmem : subclassNames.contains A = true)
    (hBmem : subclassNames.contains B = true) :
    (Annotator.resolve_type sub subclassNames [recA, recB] = some recA ∧
     Annotator.resolve_type sub subclassNames [recB, recA] = some recA) ∧
    (∀ r1 r2 : Annotator.Note,
      (r1.classes.all (fun c => subclassNames.contains c)) = true →
      (r2.classes.all (fun c => subclassNames.contains c)) = true →
      Annotator.annotation_le sub r1 r2 = false →
      Annotator.resolve_type sub subclassNames [r1, r2] = some r1) := by
  have hAmem' : A ∈ subclassNames := by simpa using hAmem
  have hBmem' : B ∈ subclassNames := by simpa using hBmem
  have hleAB : Annotator.annotation_le sub recA recB = false := by
    unfold Annotator.annotation_le
    rw [hA, hB]
    simp [hBA]
  have hleBA : Annotator.annotation_le sub recB recA = true := by
    unfold Annotator.annotation_le
    rw [hA, hB]
    simp [hAB]
  refine ⟨⟨?_, ?_⟩, ?_⟩
  · show Annotator.resolve_step sub subclassNames
      (Annotator.resolve_step sub subclassNames none recA) recB = some recA
    have h1 : Annotator.resolve_step sub subclassNames none recA = some recA := by
      unfold Annotator.resolve_step
      rw [hA]
      simp [hAmem']
    rw [h1]
    unfold Annotator.resolve_step
    simp [hleAB]
  · show Annotator.resolve_step sub subclassNames
      (Annotator.resolve_step sub subclassNames none recB) recA = some recA
    have h1 : Annotator.resolve_step sub subclassNames none recB = some recB := by
      unfold Annotator.resolve_step
      rw [hB]
      simp [hBmem']
    rw [h1]
    unfold Annotator.resolve_step
    rw [hA]
    simp [hleBA, hAmem']
  · intro r1 r2 h1 h2 hle
    show Annotator.resolve_step sub subclassNames
      (Annotator.resolve_step sub subclassNames none r1) r2 = some r1
    have hs1 : Annotator.resolve_step sub subclassNames none r1 = some r1 := by
      unfold Annotator.resolve_step
      simp [h1]
      simpa using h1
    rw [hs1]
    unfold Annotator.resolve_step
    simp [hle]

/-! ## Claims about the tracer's emission discipline -/

/-- C2, counterexample.  The claim states that no call, return, *or access*
event occurring inside an atomic scope is ever emitted.  Calling an atomic
function (here `map`, whose module `builtins` differs from the tracer's)
pushes a scope whose own `emit_events` flag is inherited as `true`; an
access hook run while that scope is on top of the stack (as happens when
library code calls back into instrumented user code) consults only that
flag, so the access event *is* emitted. -/
theorem claim_C2_counterexample :
    (Tracer.trace_function (Tracer.State.initial "flowgraph.trace.tracer")
        { module_name := "builtins", qual_name := "map" } 0).map
      Tracer.topScopeAtomic = some true ∧
    ((Tracer.trace_function (Tracer.State.initial "flowgraph.trace.tracer")
        { module_name := "builtins", qual_name := "map" } 0).bind
      (fun s1 => Tracer.trace_access s1 "x")).map Tracer.State.emitted
      = some
          [Tracer.Event.call
            { module_name := "builtins", qual_name := "map", atomic := true },
           Tracer.Event.access "x"] :=
  ⟨rfl, rfl⟩

/-- C2, amended: (i) a Call event is marked atomic iff the callable's
module name differs from the tracer's implementation module; (ii) a call
made while the top scope's own call event is atomic is processed (its scope
is pushed with emission disabled) but its Call event is not emitted;
(iii) a return popping a scope with emission disabled is not emitted;
(iv) an access event is emitted iff the current scope's `emit_events` flag
is set — the flag of the atomic scope itself may be `true`, in which case
accesses occurring directly inside it are emitted. -/
theorem claim_C2_amended :
    (∀ (tm : String) (f : Tracer.Func),
      (Tracer.create_call_event tm f).atomic = (f.module_name != tm)) ∧
    (∀ (s : Tracer.State) (prev : Tracer.Scope) (rest : List Tracer.Scope)
        (e : Tracer.CallEvent),
      s.stack = prev :: rest → prev.event = some e → e.atomic = true →
      (Tracer.trace_call s).map
          (fun s' => (s'.emitted,
            s'.stack.head?.map (fun sc => sc.emit_events), s'.stack.length))
        = (prev.call_stack.head?.map
            (fun _ => (s.emitted, some false, s.stack.length + 1)))) ∧
    (∀ (s : Tracer.State) (scope : Tracer.Scope) (rest : List Tracer.Scope)
        (e : Tracer.CallEvent) (mv : Bool),
      s.stack = scope :: rest → scope.event = some e →
      scope.emit_events = false →
      (Tracer.trace_return s mv).map Tracer.State.emitted = some s.emitted) ∧
    (∀ (s : Tracer.State) (scope : Tracer.Scope) (rest : List Tracer.Scope)
        (name : String),
      s.stack = scope :: rest →
      (Tracer.trace_access s name).map Tracer.State.emitted
        = some (if scope.emit_events then s.emitted ++ [.access name]
                else s.emitted)) := by
  refine ⟨fun tm f => rfl, ?_, ?_, ?_⟩
  · intro s prev rest e hstack hev hatomic
    unfold Tracer.trace_call
    rw [hstack]
    cases hcs : prev.call_stack with
    | nil => simp [hcs]
    | cons c calls => simp [hcs, hev, hatomic]
  · intro s scope rest e mv hstack hev hemit
    unfold Tracer.trace_return
    rw [hstack]
    simp [hev, hemit]
  · intro s scope rest name hstack
    unfold Tracer.trace_access
    rw [hstack]
    cases hemit : scope.emit_events <;> simp [hemit]

/-- Witness for C2's amended theorem at concrete states: a pending call to
a user function inside an atomic `map` scope, a suppressed return, and an
emitted access inside the atomic scope. -/
theorem claim_C2_witness :
    ((Tracer.create_call_event "flowgraph.trace.tracer"
        { module_name := "builtins", qual_name := "map" }).atomic
      = (("builtins" : String) != "flowgraph.trace.tracer")) ∧
    ((Tracer.trace_call
        { tracerModule := "flowgraph.trace.tracer",
          stack := [
            { event := some { module_name := "builtins", qual_name := "map", atomic := true },
              emit_events := true,
              call_stack := [
                { function := { module_name := "m", qual_name := "f" },
                  nargs := 0 }] },
            { event := none, emit_events := true, call_stack := [] }],
          emitted := [] }).map
        (fun s' => (s'.emitted,
          s'.stack.head?.map (fun sc => sc.emit_events), s'.stack.length))
      = some ([], some false, 3)) ∧
    ((Tracer.trace_return
        { tracerModule := "flowgraph.trace.tracer",
          stack := [
            { event := some { module_name := "m", qual_name := "f", atomic := true },
              emit_events := false, call_stack := [] },
            { event := none, emit_events := true, call_stack := [] }],
          emitted := [] } false).map Tracer.State.emitted = some []) ∧
    ((Tracer.trace_access
        { tracerModule := "flowgraph.trace.tracer",
          stack := [
            { event := some { module_name := "builtins", qual_name := "map", atomic := true },
              emit_events := true, call_stack := [] }],
          emitted := [] } "x").map Tracer.State.emitted
      = some ([] ++ [Tracer.Event.access "x"])) := by
  refine ⟨claim_C2_amended.1 "flowgraph.trace.tracer"
    { module_name := "builtins", qual_name := "map" }, ?_, ?_, ?_⟩
  · have h := claim_C2_amended.2.1
      { tracerModule := "flowgraph.trace.tracer",
        stack := [
          { event := some { module_name := "builtins", qual_name := "map", atomic := true },
            emit_events := true,
            call_stack := [
              { function := { module_name := "m", qual_name := "f" },
                nargs := 0 }] },
          { event := none, emit_events := true, call_stack := [] }],
        emitted := [] }
      { event := some { module_name := "builtins", qual_name := "map", atomic := true },
        emit_events := true,
        call_stack := [
          { function := { module_name := "m", qual_name := "f" },
            nargs := 0 }] }
      [{ event := none, emit_events := true, call_stack := [] }]
      { module_name := "builtins", qual_name := "map", atomic := true }
      rfl rfl rfl
    simpa using h
  · have h := claim_C2_amended.2.2.1
      { tracerModule := "flowgraph.trace.tracer",
        stack := [
          { event := some { module_name := "m", qual_name := "f", atomic := true },
            emit_events := false, call_stack := [] },
          { event := none, emit_events := true, call_stack := [] }],
        emitted := [] }
      { event := some { module_name := "m", qual_name := "f", atomic := true },
        emit_events := false, call_stack := [] }
      [{ event := none, emit_events := true, call_stack := [] }]
      { module_name := "m", qual_name := "f", atomic := true }
      false rfl rfl rfl
    simpa using h
  · have h := claim_C2_amended.2.2.2
      { tracerModule := "flowgraph.trace.tracer",
        stack := [
          { event := some { module_name := "builtins", qual_name := "map", atomic := true },
            emit_events := true, call_stack := [] }],
        emitted := [] }
      { event := some { module_name := "builtins", qual_name := "map", atomic := true },
        emit_events := true, call_stack := [] }
      [] "x" rfl
    simpa using h

/-! ## Claims about the builder's return handling -/

/-- C9, counterexample.  The claim states the mismatch error identifies the
offending qualified name.  The builder raises
`RuntimeError("Mismatched trace events")`, a fixed message: for a Return
event with qualified name `zzz` the raised error does not contain that name
at all. -/
theorem claim_C9_counterexample :
    Builder.push_event
        { notate_function := fun _ => none, notate_object := fun _ => none }
        { node_names := [],
          stack := [{ eventFullName := some "m.f", node := "f:1" }] }
        (.ret { module_name := "q", qual_name := "zzz" })
      = .error (.runtimeError "Mismatched trace events") ∧
    ¬ ("zzz".data <:+: "Mismatched trace events".data) :=
  ⟨rfl, by decide⟩

/-- C9, amended: a Return whose full name differs from the full name of the
Call context on top of the stack aborts construction with a fatal
`RuntimeError` whose message is the fixed string
`"Mismatched trace events"` (it does not name the offending call); when the
full names match the `RuntimeError` is not raised and construction
continues (any later failure is a different exception). -/
theorem claim_C9_amended (env : Builder.Env) (st : Builder.BuilderState)
    (context : Builder.CallContext) (rest : List Builder.CallContext)
    (fn : String) (ev : Builder.ReturnE)
    (hstack : st.stack = context :: rest)
    (hfn : context.eventFullName = some fn) :
    (fn ≠ ev.full_name →
      Builder.push_event env st (.ret ev)
        = .error (.runtimeError "Mismatched trace events")) ∧
    (fn = ev.full_name → ∀ msg,
      Builder.push_event env st (.ret ev) ≠ .error (.runtimeError msg)) := by
  constructor
  · intro hne
    show Builder.push_return_event env st ev
      = .error (.runtimeError "Mismatched trace events")
    unfold Builder.push_return_event
    rw [hstack]
    simp [hfn, hne]
  · intro heq msg
    show Builder.push_return_event env st ev ≠ .error (.runtimeError msg)
    unfold Builder.push_return_event
    rw [hstack]
    simp only [hfn]
    rw [if_neg (by simp [heq])]
    cases rest with
    | nil => simp
    | cons parent rest' =>
      cases hg : parent.graph with
      | none => simp [hg]
      | some g =>
        simp only [hg]
        cases hc : Builder.push_return_core env st.node_names g parent ev
            context.node with
        | none => simp [hc]
        | some out => simp [hc]

/-- Witness for C9's amended theorem: a mismatching and a matching Return
against a context expecting `m.f`. -/
theorem claim_C9_witness :
    ((("m.f" : String) ≠ Builder.ReturnE.full_name
        { module_name := "q", qual_name := "zzz" }) ∧
      Builder.push_event
        { notate_function := fun _ => none, notate_object := fun _ => none }
        { node_names := [],
          stack := [{ eventFullName := some "m.f", node := "f:1" },
            { graph := some Builder.new_flow_graph }] }
        (.ret { module_name := "q", qual_name := "zzz" })
      = .error (.runtimeError "Mismatched trace events")) ∧
    Builder.push_event
        { notate_function := fun _ => none, notate_object := fun _ => none }
        { node_names := [],
          stack := [{ eventFullName := some "m.f", node := "f:1" },
            { graph := some Builder.new_flow_graph }] }
        (.ret { module_name := "m", qual_name := "f" })
      ≠ .error (.runtimeError "Mismatched trace events") :=
  ⟨⟨by decide,
    (claim_C9_amended
      { notate_function := fun _ => none, notate_object := fun _ => none }
      { node_names := [],
        stack := [{ eventFullName := some "m.f", node := "f:1" },
          { graph := some Builder.new_flow_graph }] }
      { eventFullName := some "m.f", node := "f:1" }
      [{ graph := some Builder.new_flow_graph }]
      "m.f" { module_name := "q", qual_name := "zzz" } rfl rfl).1 (by decide)⟩,
   (claim_C9_amended
      { notate_function := fun _ => none, notate_object := fun _ => none }
      { node_names := [],
        stack := [{ eventFullName := some "m.f", node := "f:1" },
          { graph := some Builder.new_flow_graph }] }
      { eventFullName := some "m.f", node := "f:1" }
      [{ graph := some Builder.new_flow_graph }]
      "m.f" { module_name := "m", qual_name := "f" } rfl rfl).2 (by decide)
     "Mismatched trace events"⟩

/-- C4, counterexample.  The claim states that with `multiple_values` false
the call node receives a single output port named `return` regardless of
the payload's shape.  For a `None` payload the builder adds no return port:
after `A`'s Call and a `None`-valued Return, node `A:1` has no port named
`return`. -/
theorem claim_C4_counterexample :
    ((Builder.push_events
        { notate_function := fun _ => none, notate_object := fun _ => none }
        Builder.BuilderState.initial
        [.call {
            function := { name := "A" }, module_name := "m",
            qual_name := "A", atomic := true },
         .ret {
            function := { name := "A" }, module_name := "m",
            qual_name := "A", value := .pynone }]).toOption.bind
      (fun st => st.stack.head?.bind (fun c => c.graph))).map
        (fun g => (alookup g.nodes "A:1").map
          (fun d => alookup d.ports "return"))
      = some (some none) := by
  rfl

/-- Membership in an updated association list: either an old pair or the
new binding. -/
theorem mem_aset {α β : Type} [BEq α] [LawfulBEq α] {q : α × β} {l : List (α × β)}
    {k : α} {v : β} (h : q ∈ aset l k v) : q ∈ l ∨ q = (k, v) := by
  induction l with
  | nil => simp [aset] at h; exact Or.inr h
  | cons p rest ih =>
    rw [aset_cons] at h
    by_cases hp : p.1 = k
    · rw [if_pos (by simp [hp])] at h
      rcases List.mem_cons.mp h with he | hmem
      · exact Or.inr (by rw [he, hp])
      · exact Or.inl (List.mem_cons_of_mem _ hmem)
    · rw [if_neg (by simp [hp])] at h
      rcases List.mem_cons.mp h with he | hmem
      · exact Or.inl (by simp [he])
      · rcases ih hmem with h' | h'
        · exact Or.inl (List.mem_cons_of_mem _ h')
        · exact Or.inr h'

/-- Every port produced by `get_ports_data` carries the supplied portkind. -/
theorem get_ports_data_const (portkind : String)
    (names : List (String × String)) :
    ∀ q ∈ Builder.get_ports_data portkind names, q.2 = portkind := by
  suffices h : ∀ (names : List (String × String))
      (acc : List (String × String)), (∀ q ∈ acc, q.2 = portkind) →
      ∀ q ∈ names.foldl (fun ports np => aset ports np.2 portkind) acc,
        q.2 = portkind by
    exact h names [] (by simp)
  intro names
  induction names with
  | nil => intro acc hacc q hq; exact hacc q hq
  | cons np rest ih =>
    intro acc hacc q hq
    refine ih _ ?_ q hq
    intro q' hq'
    rcases mem_aset hq' with h' | h'
    · exact hacc q' h'
    · rw [h']

/-- Every `portname` of the name list appears among the keys of
`get_ports_data`. -/
theorem get_ports_data_keys (portkind : String)
    (names : List (String × String)) (pn : String)
    (h : pn ∈ names.map Prod.snd) :
    pn ∈ (Builder.get_ports_data portkind names).map Prod.fst := by
  suffices hgen : ∀ (names : List (String × String))
      (acc : List (String × String)),
      (pn ∈ acc.map Prod.fst ∨ pn ∈ names.map Prod.snd) →
      pn ∈ (names.foldl (fun ports np => aset ports np.2 portkind) acc).map
        Prod.fst by
    exact hgen names [] (Or.inr h)
  intro names
  induction names with
  | nil =>
    intro acc hacc
    rcases hacc with hacc | hacc
    · exact hacc
    · simp at hacc
  | cons np rest ih =>
    intro acc hacc
    refine ih (aset acc np.2 portkind) ?_
    rcases hacc with hacc | hacc
    · exact Or.inl (keys_aset_sup _ _ hacc)
    · rw [List.map_cons] at hacc
      rcases List.mem_cons.mp hacc with he | hmem
      · exact Or.inl (he ▸ mem_keys_aset_self acc np.2 portkind)
      · exact Or.inr hmem

/-- `_update_getattr_node_for_return` never touches the port map. -/
theorem update_getattr_ports {env : Builder.Env} {ev : Builder.ReturnE}
    {data d1 : Builder.NodeData}
    (h : Builder.update_getattr_node env ev data = some d1) :
    d1.ports = data.ports := by
  unfold Builder.update_getattr_node at h
  split at h
  next objv namev rest harg =>
    simp only [Option.some.injEq] at h
    subst h
    split
    next n s hns => split <;> rfl
    next => rfl
  next harg => exact Option.noConfusion h

/-- Every key of `get_ports_data` comes from the `portname` side of the
supplied name list. -/
theorem get_ports_data_keys_sub (portkind : String)
    (names : List (String × String)) (pn : String)
    (h : pn ∈ (Builder.get_ports_data portkind names).map Prod.fst) :
    pn ∈ names.map Prod.snd := by
  suffices hgen : ∀ (names : List (String × String))
      (acc : List (String × String)),
      pn ∈ (names.foldl (fun ports np => aset ports np.2 portkind) acc).map
        Prod.fst →
      pn ∈ acc.map Prod.fst ∨ pn ∈ names.map Prod.snd by
    rcases hgen names [] h with hacc | hn
    · simp at hacc
    · exact hn
  intro names
  induction names with
  | nil => intro acc h2; exact Or.inl h2
  | cons np rest ih =>
    intro acc h2
    rcases ih (aset acc np.2 portkind) h2 with hacc | hrest
    · rcases mem_keys_aset hacc with he | hmem
      · exact Or.inr (by rw [he]; simp)
      · exact Or.inl hmem
    · refine Or.inr ?_
      rw [List.map_cons]
      exact List.mem_cons_of_mem _ hrest

/-- A mutated port name always ends in `!`, so it is never `return`. -/
theorem mutated_ne_return (a : String) :
    Builder.mutated_port_name a ≠ "return" := by
  intro h
  have hd : a.data ++ ['!'] = "return".data := by
    have h2 := congrArg String.data h
    rwa [Builder.mutated_port_name, String.data_append] at h2
  have h1 := congrArg List.getLast? hd
  rw [List.getLast?_concat] at h1
  exact absurd h1 (by decide)

/-- The port map written back by `_update_call_node_for_return` on any
retained call node: the node's ports updated with the output ports named by
`output_port_names` (the `getattr`/constructor specials touch only the
other node attributes). -/
theorem update_call_node_ports (env : Builder.Env) (g : Builder.FlowGraph)
    (ev : Builder.ReturnE) (ann : Option Builder.BNote) (node : String)
    (data : Builder.NodeData) (g' : Builder.FlowGraph)
    (hnode : alookup g.nodes node = some data)
    (hupd : Builder.update_call_node_for_return env g ev ann node = some g') :
    ∃ pnames, Builder.output_port_names ev ann = some pnames ∧
      (alookup g'.nodes node).map (fun d => d.ports)
        = some (aupdate data.ports
            (Builder.get_ports_data "output" pnames)) := by
  unfold Builder.update_call_node_for_return at hupd
  simp only [hnode] at hupd
  cases hd1 : (if ann.isNone then
      (if ev.function.isGetattr then Builder.update_getattr_node env ev data
       else if ev.function.isType then
         some (Builder.update_constructor_node env ev data)
       else some data)
    else some data) with
  | none =>
    simp only [hd1] at hupd
    exact Option.noConfusion hupd
  | some data1 =>
    have hports1 : data1.ports = data.ports := by
      split at hd1
      · split at hd1
        · exact update_getattr_ports hd1
        · split at hd1
          · simp only [Option.some.injEq] at hd1
            subst hd1
            unfold Builder.update_constructor_node
            cases env.notate_object ev.value <;> rfl
          · simp only [Option.some.injEq] at hd1
            subst hd1
            rfl
      · simp only [Option.some.injEq] at hd1
        subst hd1
        rfl
    simp only [hd1] at hupd
    cases hpn : Builder.output_port_names ev ann with
    | none =>
      simp only [hpn] at hupd
      exact Option.noConfusion hupd
    | some pnames =>
      simp only [hpn, Option.some.injEq] at hupd
      refine ⟨pnames, rfl, ?_⟩
      rw [← hupd]
      show (alookup
          (aset g.nodes node
            { data1 with
              ports := aupdate data1.ports
                (Builder.get_ports_data "output" pnames) })
          node).map (fun d => d.ports) = _
      rw [alookup_aset_self]
      simp [hports1]

/-- Every port named by `output_port_names` ends up in the node's port map
with kind `output`. -/
theorem output_ports_written {env : Builder.Env} {g : Builder.FlowGraph}
    {ev : Builder.ReturnE} {ann : Option Builder.BNote} {node : String}
    {data : Builder.NodeData} {g' : Builder.FlowGraph}
    {pnames : List (String × String)}
    (hnode : alookup g.nodes node = some data)
    (hupd : Builder.update_call_node_for_return env g ev ann node = some g')
    (hpn : Builder.output_port_names ev ann = some pnames) :
    ∀ pn ∈ pnames.map Prod.snd,
      (alookup g'.nodes node).bind (fun d => alookup d.ports pn)
        = some "output" := by
  intro pn hmem
  obtain ⟨pn2, hpn2, hports⟩ :=
    update_call_node_ports env g ev ann node data g' hnode hupd
  rw [hpn] at hpn2
  have hpe : pn2 = pnames := (Option.some.inj hpn2).symm
  subst hpe
  cases halook : alookup g'.nodes node with
  | none =>
    rw [halook] at hports
    exact absurd hports (by simp)
  | some d =>
    rw [halook] at hports
    simp at hports
    show alookup d.ports pn = some "output"
    rw [hports]
    exact alookup_aupdate_const _ _ _ _ (get_ports_data_const _ _)
      (get_ports_data_keys _ _ _ hmem)

/-- A port not named by `output_port_names` is left exactly as it was. -/
theorem output_ports_untouched {env : Builder.Env} {g : Builder.FlowGraph}
    {ev : Builder.ReturnE} {ann : Option Builder.BNote} {node : String}
    {data : Builder.NodeData} {g' : Builder.FlowGraph}
    {pnames : List (String × String)} {pn : String}
    (hnode : alookup g.nodes node = some data)
    (hupd : Builder.update_call_node_for_return env g ev ann node = some g')
    (hpn : Builder.output_port_names ev ann = some pnames)
    (hnot : pn ∉ pnames.map Prod.snd) :
    (alookup g'.nodes node).bind (fun d => alookup d.ports pn)
      = alookup data.ports pn := by
  obtain ⟨pn2, hpn2, hports⟩ :=
    update_call_node_ports env g ev ann node data g' hnode hupd
  rw [hpn] at hpn2
  have hpe : pn2 = pnames := (Option.some.inj hpn2).symm
  subst hpe
  cases halook : alookup g'.nodes node with
  | none =>
    rw [halook] at hports
    exact absurd hports (by simp)
  | some d =>
    rw [halook] at hports
    simp at hports
    show alookup d.ports pn = alookup data.ports pn
    rw [hports]
    refine alookup_aupdate_not_mem _ _ _ ?_
    intro hk
    exact hnot (get_ports_data_keys_sub _ _ _ hk)

/-- C4, amended: on a Return event the output ports added to the retained
call node are: one `return.i` port per element of the payload when
`multiple_values` is set and the payload is a sequence; a single `return`
port when `multiple_values` is not set and the payload is not `None`; and
*no* return port when the payload is `None` (its port map keeps whatever
`return` binding it had before); plus, in every case, one mutated port
(`name!` under the argument's name) per impure argument. -/
theorem claim_C4_amended (env : Builder.Env) (g : Builder.FlowGraph)
    (ev : Builder.ReturnE) (ann : Option Builder.BNote) (node : String)
    (data : Builder.NodeData)
    (hnode : alookup g.nodes node = some data) :
    (∀ elems, ev.multiple_values = true →
      Builder.as_seq ev.value = some elems →
      Builder.output_port_names ev ann
        = some ((List.range elems.length).map (fun i =>
              ("return." ++ toString i, "return." ++ toString i))
            ++ Builder.mutated_port_list ev ann) ∧
      ∀ g', Builder.update_call_node_for_return env g ev ann node = some g' →
        ∀ pn ∈ (((List.range elems.length).map (fun i =>
              ("return." ++ toString i, "return." ++ toString i))
            ++ Builder.mutated_port_list ev ann).map Prod.snd),
          (alookup g'.nodes node).bind (fun d => alookup d.ports pn)
            = some "output") ∧
    (ev.multiple_values = false → ev.value ≠ .pynone →
      Builder.output_port_names ev ann
        = some ([("return", "return")] ++ Builder.mutated_port_list ev ann) ∧
      ∀ g', Builder.update_call_node_for_return env g ev ann node = some g' →
        ∀ pn ∈ (([("return", "return")]
            ++ Builder.mutated_port_list ev ann).map Prod.snd),
          (alookup g'.nodes node).bind (fun d => alookup d.ports pn)
            = some "output") ∧
    (ev.multiple_values = false → ev.value = .pynone →
      Builder.output_port_names ev ann
        = some (Builder.mutated_port_list ev ann) ∧
      ∀ g', Builder.update_call_node_for_return env g ev ann node = some g' →
        ((alookup g'.nodes node).bind (fun d => alookup d.ports "return")
            = alookup data.ports "return") ∧
        ∀ pn ∈ (Builder.mutated_port_list ev ann).map Prod.snd,
          (alookup g'.nodes node).bind (fun d => alookup d.ports pn)
            = some "output") := by
  refine ⟨?_, ?_, ?_⟩
  · intro elems hm hseq
    have hpn : Builder.output_port_names ev ann
        = some ((List.range elems.length).map (fun i =>
              ("return." ++ toString i, "return." ++ toString i))
            ++ Builder.mutated_port_list ev ann) := by
      unfold Builder.output_port_names Builder.mutated_port_list
      rw [hm]
      simp [hseq]
    refine ⟨hpn, ?_⟩
    intro g' hupd
    exact output_ports_written hnode hupd hpn
  · intro hm hval
    have hpn : Builder.output_port_names ev ann
        = some ([("return", "return")]
            ++ Builder.mutated_port_list ev ann) := by
      unfold Builder.output_port_names Builder.mutated_port_list
      rw [hm]
      cases hv : ev.value <;> simp <;> simp [hv] at hval ⊢
    refine ⟨hpn, ?_⟩
    intro g' hupd
    exact output_ports_written hnode hupd hpn
  · intro hm hval
    have hpn : Builder.output_port_names ev ann
        = some (Builder.mutated_port_list ev ann) := by
      unfold Builder.output_port_names Builder.mutated_port_list
      rw [hm]
      simp [hval]
    refine ⟨hpn, ?_⟩
    intro g' hupd
    refine ⟨?_, output_ports_written hnode hupd hpn⟩
    refine output_ports_untouched hnode hupd hpn ?_
    intro hmem
    unfold Builder.mutated_port_list at hmem
    simp only [List.map_map, List.mem_map] at hmem
    obtain ⟨p, hp, hpe⟩ := hmem
    exact mutated_ne_return p.1 hpe

/-- Witness for C4's amended theorem: a two-element sequence payload with
pure arguments (two `return.i` ports, no mutated port), and a `None`-valued
`setattr` return whose `obj` argument is impure (no return port, one
mutated `obj!` port). -/
theorem claim_C4_witness :
    ((Builder.output_port_names
        { function := { name := "A" }, module_name := "m", qual_name := "A",
          value := .seq [.pynone, .pynone], multiple_values := true } none
      = some [("return.0", "return.0"), ("return.1", "return.1")]) ∧
     (Builder.output_port_names
        { function := { name := "setattr" }, module_name := "builtins",
          qual_name := "setattr",
          arguments := [("obj", .pynone), ("name", .pystr "x")],
          value := .pynone } none
      = some [("obj", "obj!")])) := by
  constructor
  · exact ((claim_C4_amended
      { notate_function := fun _ => none, notate_object := fun _ => none }
      { nodes := [("A:1", { ports := [] })], edges := [] }
      { function := { name := "A" }, module_name := "m", qual_name := "A",
        value := .seq [.pynone, .pynone], multiple_values := true }
      none "A:1" { ports := [] } rfl).1
      [.pynone, .pynone] rfl rfl).1
  · exact ((claim_C4_amended
      { notate_function := fun _ => none, notate_object := fun _ => none }
      { nodes := [("A:1", { ports := [] })], edges := [] }
      { function := { name := "setattr" }, module_name := "builtins",
        qual_name := "setattr",
        arguments := [("obj", .pynone), ("name", .pystr "x")],
        value := .pynone }
      none "A:1" { ports := [] } rfl).2.2 rfl rfl).1

/-! ## Decimal names

`_fallback_argument_namer` names positional arguments with `str(i)` /
`str(i+1)`; settling C5 at every arity needs that distinct indices get
distinct decimal names, i.e. that `Nat.repr` (Lean's `str` on `Nat`) is
injective.  `decChars` is a structural restatement of `Nat.toDigits 10`
whose correctness (`decVal_decChars`) yields the injection. -/

/-- The decimal digit characters of a natural number, most significant
first: what `Nat.toDigits 10` computes. -/
def decChars (n : Nat) : List Char :=
  if n < 10 then [Nat.digitChar n]
  else decChars (n / 10) ++ [Nat.digitChar (n % 10)]
termination_by n
decreasing_by
  exact Nat.div_lt_self (by omega) (by omega)

/-- The value of a decimal digit string (inverse of `decChars`). -/
def decVal (l : List Char) : Nat :=
  l.foldl (fun a c => 10 * a + (c.toNat - 48)) 0

theorem toDigitsCore_decChars :
    ∀ (fuel n : Nat) (ds : List Char), 0 < fuel → n < 10 ^ fuel →
      Nat.toDigitsCore 10 fuel n ds = decChars n ++ ds := by
  intro fuel
  induction fuel with
  | zero => intro n ds h0 hn; exact absurd h0 (by omega)
  | succ f ih =>
    intro n ds h0 hn
    by_cases hlt : n < 10
    · have hdiv : n / 10 = 0 := Nat.div_eq_of_lt hlt
      have hmod : n % 10 = n := Nat.mod_eq_of_lt hlt
      rw [decChars]
      rw [if_pos hlt]
      simp [Nat.toDigitsCore, hdiv, hmod]
    · have hdiv : n / 10 ≠ 0 := by
        intro h
        have := (Nat.div_eq_zero_iff (by omega)).mp h
        omega
      have hf : 0 < f := by
        rcases Nat.eq_zero_or_pos f with hf0 | hf0
        · subst hf0
          simp at hn
          omega
        · exact hf0
      have hn' : n / 10 < 10 ^ f := by
        rw [Nat.div_lt_iff_lt_mul (by omega)]
        calc n < 10 ^ (f + 1) := hn
        _ = 10 ^ f * 10 := by rw [pow_succ]
      rw [decChars]
      rw [if_neg hlt]
      simp only [Nat.toDigitsCore]
      rw [if_neg hdiv]
      rw [ih (n / 10) (Nat.digitChar (n % 10) :: ds) hf hn']
      simp

theorem toDigits_decChars (n : Nat) :
    Nat.toDigits 10 n = decChars n := by
  have h := toDigitsCore_decChars (n + 1) n [] (by omega)
    (lt_of_lt_of_le (Nat.lt_pow_self (by omega) n)
      (Nat.pow_le_pow_right (by omega) (by omega)))
  simpa [Nat.toDigits] using h

theorem digitChar_toNat (d : Nat) (h : d < 10) :
    (Nat.digitChar d).toNat = 48 + d := by
  interval_cases d <;> decide

theorem decVal_concat (l : List Char) (c : Char) :
    decVal (l ++ [c]) = 10 * decVal l + (c.toNat - 48) := by
  unfold decVal
  rw [List.foldl_append]
  rfl

/-- `decVal` recovers the number from its decimal expansion. -/
theorem decVal_decChars : ∀ n : Nat, decVal (decChars n) = n := by
  intro n
  induction n using Nat.strong_induction_on with
  | _ n ih =>
    by_cases hlt : n < 10
    · rw [decChars, if_pos hlt]
      unfold decVal
      simp [digitChar_toNat n hlt]
    · rw [decChars, if_neg hlt]
      rw [decVal_concat]
      rw [ih (n / 10) (Nat.div_lt_self (by omega) (by omega))]
      rw [digitChar_toNat (n % 10) (Nat.mod_lt n (by omega))]
      have := Nat.div_add_mod n 10
      omega

/-- Decimal printing of naturals is injective. -/
theorem toString_nat_inj : Function.Injective (fun n : Nat => toString n) := by
  intro m n h
  have hm : toString m = (Nat.toDigits 10 m).asString := rfl
  have hd : Nat.toDigits 10 m = Nat.toDigits 10 n := by
    have h2 := congrArg String.data h
    simpa [toString, Nat.repr, List.asString] using h2
  rw [toDigits_decChars, toDigits_decChars] at hd
  have := congrArg decVal hd
  rwa [decVal_decChars, decVal_decChars] at this

/-- Every character of a decimal expansion is a digit (code ≤ 57). -/
theorem decChars_digit : ∀ (n : Nat), ∀ c ∈ decChars n, c.toNat ≤ 57 := by
  intro n
  induction n using Nat.strong_induction_on with
  | _ n ih =>
    intro c hc
    by_cases hlt : n < 10
    · rw [decChars, if_pos hlt] at hc
      simp at hc
      subst hc
      rw [digitChar_toNat n hlt]
      omega
    · rw [decChars, if_neg hlt] at hc
      rcases List.mem_append.mp hc with hc | hc
      · exact ih (n / 10) (Nat.div_lt_self (by omega) (by omega)) c hc
      · simp at hc
        subst hc
        rw [digitChar_toNat (n % 10) (Nat.mod_lt n (by omega))]
        omega

/-- No decimal name collides with `self`. -/
theorem toString_nat_ne_self (n : Nat) : toString n ≠ "self" := by
  intro h
  have hd : decChars n = "self".data := by
    have h2 := congrArg String.data h
    rw [← toDigits_decChars]
    simpa [toString, Nat.repr, List.asString] using h2
  have hmem : 's' ∈ decChars n := by
    rw [hd]
    decide
  have := decChars_digit n 's' hmem
  exact absurd this (by decide)

/-- The binding loop of `_bind_arguments_without_signature`: when the namer
yields the (pairwise distinct, fresh) `names` over the positional span, the
loop appends exactly the name-value pairs in call order. -/
theorem bawos_go_spec (arg_name : Nat → Option String) :
    ∀ (rest : List Nat) (i : Nat) (acc : List (String × Nat))
      (names : List String),
      names.length = rest.length →
      (∀ k, k < rest.length → arg_name (i + k) = names.get? k) →
      names.Nodup →
      (∀ nm ∈ names, nm ∉ acc.map Prod.fst) →
      InspectFunction.bind_arguments_without_signature.go arg_name i rest acc
        = some (acc ++ names.zip rest) := by
  intro rest
  induction rest with
  | nil =>
    intro i acc names hlen hnm hnodup hfresh
    cases names with
    | nil => simp [InspectFunction.bind_arguments_without_signature.go]
    | cons nm names' => simp at hlen
  | cons v rest' ih =>
    intro i acc names hlen hnm hnodup hfresh
    cases names with
    | nil => simp at hlen
    | cons nm names' =>
      have h0 : arg_name i = some nm := by
        have := hnm 0 (by simp)
        simpa using this
      rw [InspectFunction.bind_arguments_without_signature.go]
      simp only [h0]
      rw [aset_fresh v (hfresh nm (List.mem_cons_self _ _))]
      rw [ih (i + 1) (acc ++ [(nm, v)]) names'
        (by simpa using hlen)
        (by
          intro k hk
          have := hnm (k + 1) (by simpa using hk)
          have harith : i + (k + 1) = i + 1 + k := by omega
          rw [harith] at this
          simpa using this)
        ((List.nodup_cons.mp hnodup).2)
        (by
          intro nm' hnm'
          rw [List.map_append]
          intro hmem
          rcases List.mem_append.mp hmem with hmem | hmem
          · exact hfresh nm' (List.mem_cons_of_mem _ hnm') hmem
          · simp at hmem
            subst hmem
            exact (List.nodup_cons.mp hnodup).1 hnm')]
      simp

/-- `_bind_arguments_without_signature` under a total, collision-free namer:
the positional pairs in call order, then the keywords. -/
theorem bawos_spec (args : List Nat) (kwargs : List (String × Nat))
    (arg_name : Nat → Option String) (names : List String)
    (hlen : names.length = args.length)
    (hnm : ∀ k, k < args.length → arg_name k = names.get? k)
    (hnodup : names.Nodup)
    (hkno : (kwargs.map Prod.fst).Nodup)
    (hdisj : ∀ a ∈ kwargs.map Prod.fst, a ∉ names) :
    InspectFunction.bind_arguments_without_signature args kwargs arg_name
      = some (names.zip args ++ kwargs) := by
  unfold InspectFunction.bind_arguments_without_signature
  rw [bawos_go_spec arg_name args 0 [] names hlen
    (by intro k hk; simpa using hnm k hk) hnodup (by simp)]
  simp only [List.nil_append, Option.map_some']
  rw [aupdate_fresh kwargs _ hkno (by
    intro a ha
    rw [List.map_fst_zip names args (le_of_eq hlen)]
    exact hdisj a ha)]

/-! ## Claims about the argument binder -/

/-- C5, counterexample.  The claim states that an opaque callable's
positional arguments are always named `"0"`, `"1"`, ….  The fallback namer
instead names them `"a"`, `"b"`, … for callables from the `operator`
module, refuting the claim at `operator`-module callables (and, similarly,
`"1"`, `"2"`, … for opaque bound methods). -/
theorem claim_C5_counterexample :
    (InspectFunction.bind_arguments
        { module := some "operator", receiver := none, sig := none }
        [10, 20] []).map (fun l => l.map Prod.fst) = some ["a", "b"] ∧
    (["a", "b"] : List String) ≠ ["0", "1"] :=
  ⟨rfl, by decide⟩

/-- C5, amended: for an opaque callable (no introspectable signature) the
positional arguments are named by the fallback namer in call order at every
arity — `"0"`, `"1"`, … for a plain callable, `"a"`, `"b"`, … for
`operator`/`_operator`-module callables (whose namer indexes the 26 ascii
letters, so only up to 26 positionals), and `"1"`, `"2"`, … for bound
methods (whose receiver occupies the first entry under `self`); keyword
arguments are carried through under their own names; and for every bound
method — opaque or introspectable — the receiver appears as the first entry
under `self`, provided no other binding rebinds the name `self`. -/
theorem claim_C5_amended (args : List Nat) (r : Nat)
    (kwargs : List (String × Nat)) :
    (∀ mod : Option String,
      mod ≠ some "operator" → mod ≠ some "_operator" →
      (kwargs.map Prod.fst).Nodup →
      (∀ k ∈ kwargs.map Prod.fst,
        k ∉ (List.range args.length).map (fun i => toString i)) →
      InspectFunction.bind_arguments
          { module := mod, receiver := none, sig := none } args kwargs
        = some (((List.range args.length).map (fun i => toString i)).zip args
            ++ kwargs)) ∧
    (∀ mname : String,
      (mname = "operator" ∨ mname = "_operator") →
      args.length ≤ 26 →
      (kwargs.map Prod.fst).Nodup →
      (∀ k ∈ kwargs.map Prod.fst,
        k ∉ InspectFunction.ascii_lowercase.take args.length) →
      InspectFunction.bind_arguments
          { module := some mname, receiver := none, sig := none } args
          kwargs
        = some ((InspectFunction.ascii_lowercase.take args.length).zip args
            ++ kwargs)) ∧
    (∀ mod : Option String,
      mod ≠ some "operator" → mod ≠ some "_operator" →
      (kwargs.map Prod.fst).Nodup →
      (∀ k ∈ kwargs.map Prod.fst,
        k ∉ "self" ::
          (List.range args.length).map (fun i => toString (i + 1))) →
      InspectFunction.bind_arguments
          { module := mod, receiver := some r, sig := none } args kwargs
        = some (("self", r) ::
            (((List.range args.length).map (fun i => toString (i + 1))).zip
                args
              ++ kwargs))) ∧
    (∀ (b : List Nat → List (String × Nat) → Option (List (String × Nat)))
        (args2 : List Nat) (res : List (String × Nat)),
      b args2 kwargs = some res →
      (res.map Prod.fst).Nodup →
      "self" ∉ res.map Prod.fst →
      InspectFunction.bind_arguments
          { module := some "mypkg", receiver := some r, sig := some b } args2
          kwargs
        = some (("self", r) :: res)) := by
  refine ⟨?_, ?_, ?_, ?_⟩
  · intro mod hm1 hm2 hkno hfresh
    have hnodup : ((List.range args.length).map
        (fun i => toString i)).Nodup :=
      List.Nodup.map toString_nat_inj (List.nodup_range _)
    have hbaw := bawos_spec args kwargs
      (InspectFunction.fallback_argument_namer
        { module := mod, receiver := none, sig := none })
      ((List.range args.length).map (fun i => toString i))
      (by simp)
      (by
        intro k hk
        rw [List.get?_map, List.get?_range hk]
        show InspectFunction.fallback_argument_namer _ k = _
        unfold InspectFunction.fallback_argument_namer
        rw [if_neg (not_or.mpr ⟨hm1, hm2⟩)]
        rfl)
      hnodup hkno hfresh
    have hstep : InspectFunction.bind_arguments
        { module := mod, receiver := none, sig := none } args kwargs
        = (InspectFunction.bind_arguments_without_signature args kwargs
            (InspectFunction.fallback_argument_namer
              { module := mod, receiver := none, sig := none })).map
          (aupdate []) := rfl
    rw [hstep, hbaw]
    simp only [Option.map_some']
    rw [aupdate_fresh _ _ ?_ (by simp)]
    · simp
    · rw [List.map_append, List.map_fst_zip _ _ (le_of_eq (by simp))]
      exact List.Nodup.append hnodup hkno
        (fun a ha hka => hfresh a hka ha)
  · intro mname hmod hle hkno hfresh
    have hlen : (InspectFunction.ascii_lowercase.take args.length).length
        = args.length := by
      rw [List.length_take]
      have h26 : InspectFunction.ascii_lowercase.length = 26 := rfl
      omega
    have hnodup : (InspectFunction.ascii_lowercase.take args.length).Nodup :=
      List.Nodup.sublist (List.take_sublist _ _) (by decide)
    have hbaw := bawos_spec args kwargs
      (InspectFunction.fallback_argument_namer
        { module := some mname, receiver := none, sig := none })
      (InspectFunction.ascii_lowercase.take args.length)
      hlen
      (by
        intro k hk
        rw [List.get?_take hk]
        rcases hmod with h | h <;> subst h <;> rfl)
      hnodup hkno hfresh
    have hstep : InspectFunction.bind_arguments
        { module := some mname, receiver := none, sig := none } args kwargs
        = (InspectFunction.bind_arguments_without_signature args kwargs
            (InspectFunction.fallback_argument_namer
              { module := some mname, receiver := none,
                sig := none })).map
          (aupdate []) := rfl
    rw [hstep, hbaw]
    simp only [Option.map_some']
    rw [aupdate_fresh _ _ ?_ (by simp)]
    · simp
    · rw [List.map_append, List.map_fst_zip _ _ (le_of_eq hlen)]
      exact List.Nodup.append hnodup hkno
        (fun a ha hka => hfresh a hka ha)
  · intro mod hm1 hm2 hkno hfresh
    have hnodup : ((List.range args.length).map
        (fun i => toString (i + 1))).Nodup :=
      List.Nodup.map
        (fun a b h => by
          have := toString_nat_inj h
          omega)
        (List.nodup_range _)
    have hbaw := bawos_spec args kwargs
      (InspectFunction.fallback_argument_namer
        { module := mod, receiver := some r, sig := none })
      ((List.range args.length).map (fun i => toString (i + 1)))
      (by simp)
      (by
        intro k hk
        rw [List.get?_map, List.get?_range hk]
        show InspectFunction.fallback_argument_namer _ k = _
        unfold InspectFunction.fallback_argument_namer
        rw [if_neg (not_or.mpr ⟨hm1, hm2⟩)]
        rfl)
      hnodup hkno
      (fun a ha hmem => hfresh a ha (List.mem_cons_of_mem _ hmem))
    have hstep : InspectFunction.bind_arguments
        { module := mod, receiver := some r, sig := none } args kwargs
        = (InspectFunction.bind_arguments_without_signature args kwargs
            (InspectFunction.fallback_argument_namer
              { module := mod, receiver := some r,
                sig := none })).map
          (aupdate [("self", r)]) := rfl
    rw [hstep, hbaw]
    simp only [Option.map_some']
    rw [aupdate_fresh _ _ ?_ ?_]
    · simp
    · rw [List.map_append, List.map_fst_zip _ _ (le_of_eq (by simp))]
      exact List.Nodup.append hnodup hkno
        (fun a ha hka => hfresh a hka (List.mem_cons_of_mem _ ha))
    · intro a ha
      rw [List.map_append, List.map_fst_zip _ _ (le_of_eq (by simp))] at ha
      simp only [List.map_cons, List.map_nil]
      intro hmem
      rcases List.mem_cons.mp hmem with he | hmem2
      · rcases List.mem_append.mp ha with ha2 | ha2
        · obtain ⟨i, hi, hie⟩ := List.mem_map.mp ha2
          exact toString_nat_ne_self (i + 1) (hie.trans he)
        · exact hfresh a ha2 (by rw [he]; exact List.mem_cons_self _ _)
      · exact absurd hmem2 (by simp)
  · intro b args2 res hb hnodup hself
    have hstep : InspectFunction.bind_arguments
        { module := some "mypkg", receiver := some r, sig := some b } args2
          kwargs
        = (b args2 kwargs).map (aupdate [("self", r)]) := rfl
    rw [hstep, hb]
    simp
    rw [aupdate_fresh res _ hnodup (by
      intro a ha
      simp
      exact fun he => hself (he ▸ ha))]
    simp

/-- Witness for C5's amended theorem at concrete inputs. -/
theorem claim_C5_witness :
    (InspectFunction.bind_arguments
        { module := some "mypkg", receiver := none, sig := none } [10, 20]
          [("k", 9)]
      = some [("0", 10), ("1", 20), ("k", 9)]) ∧
    (InspectFunction.bind_arguments
        { module := some "operator", receiver := none, sig := none } [10, 20]
          [("k", 9)]
      = some [("a", 10), ("b", 20), ("k", 9)]) ∧
    (InspectFunction.bind_arguments
        { module := some "mypkg", receiver := some 5, sig := none } [10, 20]
          [("k", 9)]
      = some [("self", 5), ("1", 10), ("2", 20), ("k", 9)]) ∧
    (InspectFunction.bind_arguments
        { module := some "mypkg", receiver := some 5,
          sig := some (fun _ _ => some [("u", 10), ("k", 9)]) } [10]
          [("k", 9)]
      = some [("self", 5), ("u", 10), ("k", 9)]) :=
  ⟨(claim_C5_amended [10, 20] 5 [("k", 9)]).1 (some "mypkg") (by decide)
     (by decide) (by decide) (by decide),
   (claim_C5_amended [10, 20] 5 [("k", 9)]).2.1 "operator" (Or.inl rfl)
     (by decide) (by decide) (by decide),
   (claim_C5_amended [10, 20] 5 [("k", 9)]).2.2.1 (some "mypkg") (by decide)
     (by decide) (by decide) (by decide),
   (claim_C5_amended [10, 20] 5 [("k", 9)]).2.2.2
     (fun _ _ => some [("u", 10), ("k", 9)]) [10] [("u", 10), ("k", 9)]
     rfl (by decide) (by decide)⟩

/-- Witness for C7 at a concrete hierarchy `pkg.A <: pkg.B` with records
declaring one class each, plus an incomparable pair. -/
theorem claim_C7_witness :
    (Annotator.resolve_type
        (fun a b => a == "pkg.A" && b == "pkg.B") ["pkg.A", "pkg.B", "pkg.C"]
        [{ pk := "ra", classes := ["pkg.A"] }, { pk := "rb", classes := ["pkg.B"] }]
      = some { pk := "ra", classes := ["pkg.A"] } ∧
     Annotator.resolve_type
        (fun a b => a == "pkg.A" && b == "pkg.B") ["pkg.A", "pkg.B", "pkg.C"]
        [{ pk := "rb", classes := ["pkg.B"] }, { pk := "ra", classes := ["pkg.A"] }]
      = some { pk := "ra", classes := ["pkg.A"] }) ∧
    Annotator.resolve_type
        (fun a b => a == "pkg.A" && b == "pkg.B") ["pkg.A", "pkg.B", "pkg.C"]
        [{ pk := "rb", classes := ["pkg.B"] }, { pk := "rc", classes := ["pkg.C"] }]
      = some { pk := "rb", classes := ["pkg.B"] } :=
  ⟨(claim_C7 (fun a b => a == "pkg.A" && b == "pkg.B") ["pkg.A", "pkg.B", "pkg.C"]
      "pkg.A" "pkg.B" { pk := "ra", classes := ["pkg.A"] }
      { pk := "rb", classes := ["pkg.B"] } rfl rfl (by decide) (by decide)
      (by decide) (by decide)).1,
   (claim_C7 (fun a b => a == "pkg.A" && b == "pkg.B") ["pkg.A", "pkg.B", "pkg.C"]
      "pkg.A" "pkg.B" { pk := "ra", classes := ["pkg.A"] }
      { pk := "rb", classes := ["pkg.B"] } rfl rfl (by decide) (by decide)
      (by decide) (by decide)).2
     { pk := "rb", classes := ["pkg.B"] } { pk := "rc", classes := ["pkg.C"] }
     (by decide) (by decide) (by decide)⟩

/-! ## Claim C1: at most one OUTPUT edge per object identifier -/

namespace Builder

theorem outputEdges_append (l1 l2 : List Edge) (x : String) :
    outputEdges (l1 ++ l2) x = outputEdges l1 x ++ outputEdges l2 x := by
  unfold outputEdges
  exact List.filter_append _ _

theorem outputEdges_single_nonoutput (e : Edge) (he : e.tgt ≠ Node.output)
    (x : String) : outputEdges [e] x = [] := by
  unfold outputEdges
  have hb : (e.tgt == Node.output) = false := beq_eq_false_iff_ne.mpr he
  simp [List.filter, hb]

theorem outputEdges_single_ne (e : Edge) (x : String)
    (hid : e.id ≠ some x) : outputEdges [e] x = [] := by
  unfold outputEdges
  have hb : (e.id == some x) = false := beq_eq_false_iff_ne.mpr hid
  simp [List.filter, hb]

theorem TableInv_append_nonoutput {edges : List Edge}
    {outT : List (String × String × String)} (e : Edge)
    (he : e.tgt ≠ Node.output) (h : TableInv edges outT) :
    TableInv (edges ++ [e]) outT := by
  intro e' he' htgt
  rcases List.mem_append.mp he' with hm | hm
  · exact h e' hm htgt
  · simp at hm
    subst hm
    exact absurd htgt he

theorem CountInv_append_nonoutput {edges : List Edge} (e : Edge)
    (he : e.tgt ≠ Node.output) (h : CountInv edges) :
    CountInv (edges ++ [e]) := by
  intro x
  rw [outputEdges_append, outputEdges_single_nonoutput e he x]
  simpa using h x

theorem TableInv_filter {edges : List Edge}
    {outT : List (String × String × String)} (p : Edge → Bool)
    (h : TableInv edges outT) : TableInv (edges.filter p) outT :=
  fun e he ht => h e (List.mem_filter.mp he).1 ht

theorem length_filter_filter_le (l : List Edge) (p q : Edge → Bool) :
    ((l.filter p).filter q).length ≤ (l.filter q).length :=
  List.Sublist.length_le (List.Sublist.filter q (List.filter_sublist l))

theorem CountInv_filter {edges : List Edge} (p : Edge → Bool)
    (h : CountInv edges) : CountInv (edges.filter p) := by
  intro x
  exact le_trans (length_filter_filter_le edges p _) (h x)

theorem mem_remove_output_edge {e : Edge} {l : List Edge} {old x : String}
    (h : e ∈ remove_output_edge l old x) : e ∈ l := by
  induction l with
  | nil => simpa [remove_output_edge] using h
  | cons e' t ih =>
    unfold remove_output_edge at h
    by_cases hp : (e'.src == Node.call old && e'.tgt == Node.output &&
        e'.id == some x) = true
    · rw [if_pos hp] at h
      exact List.mem_cons_of_mem _ h
    · rw [if_neg hp] at h
      rcases List.mem_cons.mp h with he | hm
      · exact he ▸ List.mem_cons_self _ _
      · exact List.mem_cons_of_mem _ (ih hm)

theorem outputEdges_remove_ne (l : List Edge) (old x x' : String)
    (hne : x' ≠ x) :
    outputEdges (remove_output_edge l old x) x' = outputEdges l x' := by
  induction l with
  | nil => rfl
  | cons e t ih =>
    unfold remove_output_edge
    by_cases hp : (e.src == Node.call old && e.tgt == Node.output &&
        e.id == some x) = true
    · rw [if_pos hp]
      have hid : e.id = some x := by
        simp at hp
        exact hp.2
      have hb : (e.id == some x') = false := by
        rw [hid]
        exact beq_eq_false_iff_ne.mpr (fun hxx => hne (Option.some.inj hxx).symm)
      have : outputEdges (e :: t) x' = outputEdges t x' := by
        unfold outputEdges
        rw [List.filter_cons, if_neg (by simp [hb])]
      rw [this]
    · rw [if_neg hp]
      unfold outputEdges at ih ⊢
      rw [List.filter_cons, List.filter_cons]
      by_cases hq : (e.tgt == Node.output && e.id == some x') = true
      · rw [if_pos (by simpa using hq), if_pos (by simpa using hq)]
        rw [ih]
      · rw [if_neg (by simpa using hq), if_neg (by simpa using hq)]
        exact ih

theorem outputEdges_remove_self (l : List Edge) (old x : String)
    (hsub : ∀ e ∈ l, (e.tgt == Node.output && e.id == some x) = true →
      (e.src == Node.call old && e.tgt == Node.output &&
        e.id == some x) = true)
    (hlen : (outputEdges l x).length = 1) :
    outputEdges (remove_output_edge l old x) x = [] := by
  induction l with
  | nil => simp [outputEdges] at hlen
  | cons e t ih =>
    unfold remove_output_edge
    by_cases hp : (e.src == Node.call old && e.tgt == Node.output &&
        e.id == some x) = true
    · rw [if_pos hp]
      have hq : (e.tgt == Node.output && e.id == some x) = true := by
        simp at hp ⊢
        exact ⟨hp.1.2, hp.2⟩
      unfold outputEdges at hlen ⊢
      rw [List.filter_cons, if_pos (by simpa using hq)] at hlen
      rw [List.length_cons] at hlen
      have h0 : (List.filter
          (fun e => e.tgt == Node.output && e.id == some x) t).length = 0 := by
        omega
      exact List.length_eq_zero.mp h0
    · rw [if_neg hp]
      have hq : (e.tgt == Node.output && e.id == some x) = false := by
        cases hv : (e.tgt == Node.output && e.id == some x) with
        | true => exact absurd (hsub e (List.mem_cons_self _ _) hv) hp
        | false => rfl
      unfold outputEdges at hlen ⊢
      rw [List.filter_cons, if_neg (by simp [hq])] at hlen
      rw [List.filter_cons, if_neg (by simp [hq])]
      exact ih (fun e' he' => hsub e' (List.mem_cons_of_mem _ he')) hlen

theorem conj_filter (l : List Edge) (p q : Edge → Bool) :
    (l.filter p).filter q = l.filter (fun e => p e && q e) := by
  induction l with
  | nil => rfl
  | cons e t ih =>
    by_cases hp : p e = true
    · by_cases hq : q e = true
      · rw [List.filter_cons, if_pos (by simp [hp]), List.filter_cons,
          if_pos (by simp [hq]), List.filter_cons, if_pos (by simp [hp, hq]), ih]
      · rw [List.filter_cons, if_pos (by simp [hp]), List.filter_cons,
          if_neg (by simp [hq]), List.filter_cons, if_neg (by simp [hq]), ih]
    · rw [List.filter_cons, if_neg (by simp [hp]), List.filter_cons,
        if_neg (by simp [hp]), ih]

/-- Under the table-edge correspondence, every `OUTPUT` edge carrying `x`
comes from the provider recorded for `x`. -/
theorem outP_implies_P {l : List Edge} {outT : List (String × String × String)}
    {old oldp x : String}
    (hT : TableInv l outT) (hx : alookup outT x = some (old, oldp)) :
    ∀ e ∈ l, (e.tgt == Node.output && e.id == some x) = true →
      (e.src == Node.call old && (e.tgt == Node.output &&
        e.id == some x)) = true := by
  intro e he hq
  simp at hq
  obtain ⟨x', n, p, hid, hsrc, hsp, hlook⟩ := hT e he hq.1
  have hx' : x' = x := by
    rw [hid] at hq
    exact Option.some.inj hq.2
  subst hx'
  rw [hx] at hlook
  have hn : n = old := (congrArg Prod.fst (Option.some.inj hlook)).symm
  simp [hsrc, hn, hq.1, hq.2]

/-- The `keys` comprehension of `_set_object_output_node` selects exactly
the `OUTPUT` edges carrying `obj_id`, given the table-edge correspondence. -/
theorem keys_eq_outputEdges {l : List Edge}
    {outT : List (String × String × String)} {old oldp x : String}
    (hT : TableInv l outT) (hx : alookup outT x = some (old, oldp)) :
    (l.filter (fun e => e.src == Node.call old && e.tgt == Node.output)).filter
      (fun e => e.id == some x) = outputEdges l x := by
  rw [conj_filter]
  unfold outputEdges
  apply List.filter_congr
  intro e he
  cases hq : (e.tgt == Node.output && e.id == some x) with
  | true =>
    have hP := outP_implies_P hT hx e he hq
    simp at hP hq ⊢
    exact ⟨⟨hP.1, hq.1⟩, hq.2⟩
  | false =>
    cases hv : ((e.src == Node.call old && e.tgt == Node.output) &&
        e.id == some x) with
    | true =>
      exfalso
      simp at hv hq
      exact hq hv.1.2 hv.2
    | false => rfl

/-- Setting an object's output when the table has no provider yet: the
invariants carry to the extended graph and table. -/
theorem setOut_fresh {l : List Edge} {outT : List (String × String × String)}
    {x node port : String} {e_new : Edge}
    (hsrc : e_new.src = Node.call node) (htgt : e_new.tgt = Node.output)
    (hid : e_new.id = some x) (hsp : e_new.sourceport = some port)
    (hx : alookup outT x = none) (hT : TableInv l outT) (hC : CountInv l) :
    TableInv (l ++ [e_new]) (aset outT x (node, port)) ∧
    CountInv (l ++ [e_new]) := by
  have hnoxP : ∀ e ∈ l, ¬((e.tgt == Node.output && e.id == some x) = true) := by
    intro e he hq
    simp at hq
    obtain ⟨x', n, p, hid', hsrc', hsp', hlook⟩ := hT e he hq.1
    have hx' : x' = x := by
      rw [hid'] at hq
      exact Option.some.inj hq.2
    rw [hx'] at hlook
    rw [hx] at hlook
    exact absurd hlook (by simp)
  have hnox : outputEdges l x = [] := by
    unfold outputEdges
    exact List.filter_eq_nil_iff.mpr hnoxP
  constructor
  · intro e' hmem htgt'
    rcases List.mem_append.mp hmem with hm | hm
    · obtain ⟨x', n, p, hid', hsrc', hsp', hlook⟩ := hT e' hm htgt'
      have hxne : x' ≠ x := by
        intro he
        refine hnoxP e' hm ?_
        simp [htgt', hid', he]
      exact ⟨x', n, p, hid', hsrc', hsp', by
        rw [alookup_aset_ne _ _ hxne]
        exact hlook⟩
    · simp at hm
      subst hm
      exact ⟨x, node, port, hid, hsrc, hsp, alookup_aset_self _ _ _⟩
  · intro x'
    rw [outputEdges_append]
    by_cases hxx : x' = x
    · subst hxx
      rw [hnox]
      have : outputEdges [e_new] x' = [e_new] := by
        unfold outputEdges
        rw [List.filter_cons, if_pos (by simp [htgt, hid])]
        rfl
      rw [this]
      simp
    · have hne : e_new.id ≠ some x' := by
        rw [hid]
        intro he
        exact hxx (Option.some.inj he).symm
      rw [outputEdges_single_ne _ _ hne]
      simpa using hC x'

/-- Setting an object's output when the table records a provider `old` and
the graph holds exactly one `OUTPUT` edge for the identifier: removing that
edge and adding the new one carries the invariants. -/
theorem setOut_replace {l : List Edge} {outT : List (String × String × String)}
    {x node port old oldp : String} {e_new : Edge}
    (hsrc : e_new.src = Node.call node) (htgt : e_new.tgt = Node.output)
    (hid : e_new.id = some x) (hsp : e_new.sourceport = some port)
    (hx : alookup outT x = some (old, oldp)) (hT : TableInv l outT)
    (hC : CountInv l) (hlen : (outputEdges l x).length = 1) :
    TableInv (remove_output_edge l old x ++ [e_new]) (aset outT x (node, port)) ∧
    CountInv (remove_output_edge l old x ++ [e_new]) := by
  have hsub : ∀ e ∈ l, (e.tgt == Node.output && e.id == some x) = true →
      (e.src == Node.call old && e.tgt == Node.output &&
        e.id == some x) = true := by
    intro e he hq
    have h2 := outP_implies_P hT hx e he hq
    simp at h2 ⊢
    exact ⟨⟨h2.1, h2.2.1⟩, h2.2.2⟩
  have hrem : outputEdges (remove_output_edge l old x) x = [] :=
    outputEdges_remove_self l old x hsub hlen
  constructor
  · intro e' hmem htgt'
    rcases List.mem_append.mp hmem with hm | hm
    · obtain ⟨x', n, p, hid', hsrc', hsp', hlook⟩ :=
        hT e' (mem_remove_output_edge hm) htgt'
      have hxne : x' ≠ x := by
        intro he
        have hin : e' ∈ outputEdges (remove_output_edge l old x) x := by
          unfold outputEdges
          refine List.mem_filter.mpr ⟨hm, ?_⟩
          simp [htgt', hid', he]
        rw [hrem] at hin
        exact absurd hin (by simp)
      exact ⟨x', n, p, hid', hsrc', hsp', by
        rw [alookup_aset_ne _ _ hxne]
        exact hlook⟩
    · simp at hm
      subst hm
      exact ⟨x, node, port, hid, hsrc, hsp, alookup_aset_self _ _ _⟩
  · intro x'
    rw [outputEdges_append]
    by_cases hxx : x' = x
    · subst hxx
      rw [hrem]
      have : outputEdges [e_new] x' = [e_new] := by
        unfold outputEdges
        rw [List.filter_cons, if_pos (by simp [htgt, hid])]
        rfl
      rw [this]
      simp
    · rw [outputEdges_remove_ne l old x x' hxx]
      have hne : e_new.id ≠ some x' := by
        rw [hid]
        intro he
        exact hxx (Option.some.inj he).symm
      rw [outputEdges_single_ne _ _ hne]
      simpa using hC x'

def SetOutP (N : Nat) : Prop :=
  ∀ env nn g outT obj obj_id node port nnr gr outTr,
    sizeOf obj ≤ N →
    set_object_output_node env nn g outT obj obj_id node port
      = some (nnr, gr, outTr) →
    TableInv g.edges outT → CountInv g.edges →
    TableInv gr.edges outTr ∧ CountInv gr.edges

def GoP (N : Nat) : Prop :=
  ∀ env nn g outT obj obj_id node port noteKey pending nnr gr outTr,
    sizeOf obj ≤ N →
    add_object_slots_go env nn g outT obj obj_id node port noteKey pending
      = some (nnr, gr, outTr) →
    TableInv g.edges outT → CountInv g.edges →
    TableInv gr.edges outTr ∧ CountInv gr.edges

theorem TableInv_add_object_edge {outT : List (String × String × String)}
    (env : Env) (g : FlowGraph) (obj : PyVal) (src tgt : Node)
    (objId sp tp : Option String)
    (htgt : tgt ≠ Node.output) (hT : TableInv g.edges outT) :
    TableInv (add_object_edge env g obj src tgt objId sp tp).edges outT := by
  simp only [add_object_edge]
  exact TableInv_append_nonoutput _ htgt hT

theorem CountInv_add_object_edge (env : Env) (g : FlowGraph) (obj : PyVal)
    (src tgt : Node) (objId sp tp : Option String)
    (htgt : tgt ≠ Node.output) (hC : CountInv g.edges) :
    CountInv (add_object_edge env g obj src tgt objId sp tp).edges := by
  simp only [add_object_edge]
  exact CountInv_append_nonoutput _ htgt hC

theorem setOut_master : ∀ N, SetOutP N ∧ GoP N := by
  intro N
  induction N using Nat.strong_induction_on with
  | _ N IH =>
  have hgo : GoP N := by
    intro env nn g outT obj obj_id node port noteKey pending
    induction pending generalizing nn g outT with
    | nil =>
      intro nnr gr outTr hsz heq hT hC
      unfold add_object_slots_go at heq
      simp only [Option.some.injEq, Prod.mk.injEq] at heq
      obtain ⟨h1, h2, h3⟩ := heq
      subst h2
      subst h3
      exact ⟨hT, hC⟩
    | cons slot rest ihrest =>
      intro nnr gr outTr hsz heq hT hC
      unfold add_object_slots_go at heq
      split at heq
      next hval =>
        exact ihrest nn g outT nnr gr outTr hsz heq hT hC
      next slot_value hval =>
        rcases hnode : node_name nn ("slot:" ++ slot) with ⟨slot_node, nn1⟩
        simp only [hnode] at heq
        have hszv : sizeOf slot_value < N :=
          lt_of_lt_of_le (sizeOf_get_slot hval) hsz
        split at heq
        next slot_id htrack =>
          split at heq
          next hsetnone => exact absurd heq (by simp)
          next nn2 g3 outT2 hseteq =>
            have hpair := (IH (sizeOf slot_value) hszv).1 env nn1 _ outT
              slot_value slot_id slot_node "return" nn2 g3 outT2 (le_refl _)
              hseteq
              (TableInv_add_object_edge _ _ _ _ _ _ _ _ (by simp) hT)
              (CountInv_add_object_edge _ _ _ _ _ _ _ _ (by simp) hC)
            exact ihrest nn2 g3 outT2 nnr gr outTr hsz heq hpair.1 hpair.2
        next htrack =>
          exact ihrest nn1 _ outT nnr gr outTr hsz heq
            (TableInv_add_object_edge _ _ _ _ _ _ _ _ (by simp) hT)
            (CountInv_add_object_edge _ _ _ _ _ _ _ _ (by simp) hC)
  have hset : SetOutP N := by
    intro env nn g outT obj obj_id node port nnr gr outTr hsz heq hT hC
    unfold set_object_output_node at heq
    cases hlook : alookup outT obj_id with
    | none =>
      simp only [hlook] at heq
      have hfresh := @setOut_fresh g.edges outT obj_id node port
          { src := Node.call node, tgt := Node.output, id := some obj_id,
            sourceport := some port, targetport := none,
            annot := (env.notate_object obj).map annotation_key }
          rfl rfl rfl rfl hlook hT hC
      split at heq
      next hstore =>
        exact hgo env nn _ _ obj obj_id node port _ _ nnr gr outTr hsz heq
          hfresh.1 hfresh.2
      next hstore =>
        simp only [Option.some.injEq, Prod.mk.injEq] at heq
        obtain ⟨h1, h2, h3⟩ := heq
        subst h2
        subst h3
        exact ⟨hfresh.1, hfresh.2⟩
    | some oldpair =>
      rcases oldpair with ⟨old, oldp⟩
      simp only [hlook] at heq
      split at heq
      next hnone => simp at heq
      next g1 hrem =>
        split at hrem
        next hemp => simp at hrem
        next hemp =>
          split at hrem
          next hany => simp at hrem
          next hany =>
            split at hrem
            next hklen =>
              simp only [Option.some.injEq] at hrem
              subst hrem
              have hlen : (outputEdges g.edges obj_id).length = 1 := by
                rw [← keys_eq_outputEdges hT hlook]
                exact hklen
              have hrep := @setOut_replace g.edges outT obj_id node port old
                  oldp
                  { src := Node.call node, tgt := Node.output,
                    id := some obj_id, sourceport := some port,
                    targetport := none,
                    annot := (env.notate_object obj).map annotation_key }
                  rfl rfl rfl rfl hlook hT hC hlen
              split at heq
              next hstore =>
                exact hgo env nn _ _ obj obj_id node port _ _ nnr gr outTr hsz
                  heq hrep.1 hrep.2
              next hstore =>
                simp only [Option.some.injEq, Prod.mk.injEq] at heq
                obtain ⟨h1, h2, h3⟩ := heq
                subst h2
                subst h3
                exact ⟨hrep.1, hrep.2⟩
            next hklen => simp at hrem
  exact ⟨hset, hgo⟩

/-- The invariant pair survives one `_set_object_output_node` call. -/
theorem set_object_output_node_invariant {env : Env} {nn : List (String × Nat)}
    {g : FlowGraph} {outT : List (String × String × String)} {obj : PyVal}
    {obj_id node port : String} {nnr : List (String × Nat)} {gr : FlowGraph}
    {outTr : List (String × String × String)}
    (heq : set_object_output_node env nn g outT obj obj_id node port
      = some (nnr, gr, outTr))
    (hT : TableInv g.edges outT) (hC : CountInv g.edges) :
    TableInv gr.edges outTr ∧ CountInv gr.edges :=
  (setOut_master (sizeOf obj)).1 env nn g outT obj obj_id node port nnr gr
    outTr (le_refl _) heq hT hC

/-- A step-invariant is preserved by a monadic fold over `Option`. -/
theorem foldlM_option_inv {α β : Type} {P : β → Prop} {f : β → α → Option β}
    (hstep : ∀ b a b', P b → f b a = some b' → P b') :
    ∀ (l : List α) (b b' : β), List.foldlM f b l = some b' → P b → P b' := by
  intro l
  induction l with
  | nil =>
    intro b b' h hb
    simp [List.foldlM] at h
    subst h
    exact hb
  | cons a t ih =>
    intro b b' h hb
    cases hf : f b a with
    | none => simp [List.foldlM, hf] at h
    | some b1 =>
      simp only [List.foldlM, hf] at h
      exact ih b1 b' (by simpa using h) (hstep b a b1 hb hf)

/-- The per-scope invariant only looks at the graph and the output table. -/
theorem ctx_like_CtxInv {ctx ctx2 : CallContext}
    (hg : ctx2.graph = ctx.graph) (ho : ctx2.output_table = ctx.output_table)
    (h : CtxInv ctx) : CtxInv ctx2 := by
  intro g hgg
  rw [hg] at hgg
  rw [ho]
  exact h g hgg

theorem TableInv_nil (outT : List (String × String × String)) :
    TableInv [] outT := by
  intro e he
  simp at he

theorem CountInv_nil : CountInv [] := by
  intro x
  simp [outputEdges]

/-- `_add_call_in_edge` never targets the `OUTPUT` sentinel. -/
theorem add_call_in_edge_inv {outT : List (String × String × String)}
    (env : Env) (g : FlowGraph) (evT : List (Nat × String × String))
    (ev : CallE) (node : String) (an : String) (arg : PyVal)
    (hT : TableInv g.edges outT) (hC : CountInv g.edges) :
    TableInv (add_call_in_edge env g outT evT ev node an arg).edges outT ∧
    CountInv (add_call_in_edge env g outT evT ev node an arg).edges := by
  simp only [add_call_in_edge]
  split
  next src srcport hsrc =>
    exact ⟨TableInv_add_object_edge _ _ _ _ _ _ _ _ (by simp) hT,
      CountInv_add_object_edge _ _ _ _ _ _ _ _ (by simp) hC⟩
  next hnone =>
    split
    next i hi =>
      exact ⟨TableInv_add_object_edge _ _ _ _ _ _ _ _ (by simp) hT,
        CountInv_add_object_edge _ _ _ _ _ _ _ _ (by simp) hC⟩
    next => exact ⟨hT, hC⟩

/-- The argument loop of `_push_call_event` preserves the invariants. -/
theorem foldl_add_call_in_edge_inv {outT : List (String × String × String)}
    (env : Env) (evT : List (Nat × String × String)) (ev : CallE)
    (node : String) :
    ∀ (args : List (String × PyVal)) (g : FlowGraph),
      TableInv g.edges outT → CountInv g.edges →
      TableInv ((args.foldl
        (fun g2 p => add_call_in_edge env g2 outT evT ev node p.1 p.2)
        g).edges) outT ∧
      CountInv ((args.foldl
        (fun g2 p => add_call_in_edge env g2 outT evT ev node p.1 p.2)
        g).edges) := by
  intro args
  induction args with
  | nil => intro g hT hC; exact ⟨hT, hC⟩
  | cons p rest ih =>
    intro g hT hC
    have hstep := add_call_in_edge_inv env g evT ev node p.1 p.2 hT hC
    exact ih _ hstep.1 hstep.2

/-- `_update_call_node_for_return` only touches node attributes. -/
theorem update_call_edges {env : Env} {g : FlowGraph} {ev : ReturnE}
    {ann : Option BNote} {node : String} {g3 : FlowGraph}
    (h : update_call_node_for_return env g ev ann node = some g3) :
    g3.edges = g.edges := by
  unfold update_call_node_for_return at h
  cases hl : alookup g.nodes node with
  | none =>
    simp only [hl] at h
    exact Option.noConfusion h
  | some data =>
    simp only [hl] at h
    cases hd1 : (if ann.isNone = true then
        (if ev.function.isGetattr = true then update_getattr_node env ev data
         else if ev.function.isType = true then
           some (update_constructor_node env ev data)
         else some data)
      else some data) with
    | none =>
      simp only [hd1] at h
      exact Option.noConfusion h
    | some data1 =>
      simp only [hd1] at h
      cases hp : output_port_names ev ann with
      | none =>
        simp only [hp] at h
        exact Option.noConfusion h
      | some port_names =>
        simp only [hp, Option.some.injEq] at h
        rw [← h]

/-- `_push_call_event` preserves the stack invariant. -/
theorem push_call_event_StInv {env : Env} {st : BuilderState} {ev : CallE}
    {st2 : BuilderState}
    (heq : push_call_event env st ev = some st2) (hS : StInv st) :
    StInv st2 := by
  unfold push_call_event at heq
  cases hstack : st.stack with
  | nil =>
    simp only [hstack] at heq
    exact Option.noConfusion heq
  | cons context rest =>
    simp only [hstack] at heq
    cases hg : context.graph with
    | none =>
      simp only [hg] at heq
      exact Option.noConfusion heq
    | some g =>
      simp only [hg] at heq
      rcases hnode : node_name st.node_names ev.qual_name with ⟨node, nn1⟩
      simp only [hnode, Option.some.injEq] at heq
      subst heq
      have hctx : CtxInv context :=
        hS context (by rw [hstack]; exact List.mem_cons_self _ _)
      intro ctx hmem
      simp only [List.mem_cons] at hmem
      rcases hmem with rfl | rfl | hmem
      · intro gg hgg
        simp only [] at hgg
        split at hgg
        next hat =>
          simp only [Option.some.injEq] at hgg
          subst hgg
          exact ⟨TableInv_nil _, CountInv_nil⟩
        next hat => exact Option.noConfusion hgg
      · intro gg hgg
        simp only [Option.some.injEq] at hgg
        subst hgg
        have hbase := hctx g hg
        exact foldl_add_call_in_edge_inv env context.event_table ev node
          ev.arguments _ hbase.1 hbase.2
      · exact hS ctx (by rw [hstack]; exact List.mem_cons_of_mem _ hmem)

theorem push_return_core_inv {env : Env} {nn : List (String × Nat)}
    {g : FlowGraph} {parent : CallContext} {ev : ReturnE} {node : String}
    {nn2 : List (String × Nat)} {parent2 : CallContext}
    (heq : push_return_core env nn g parent ev node = some (nn2, parent2))
    (hT : TableInv g.edges parent.output_table) (hC : CountInv g.edges) :
    CtxInv parent2 := by
  unfold push_return_core at heq
  split at heq
  next hign =>
    simp only [Option.some.injEq, Prod.mk.injEq] at heq
    obtain ⟨h1, h2⟩ := heq
    subst h2
    intro gg hgg
    simp only [Option.some.injEq] at hgg
    subst hgg
    exact ⟨TableInv_filter _ hT, CountInv_filter _ hC⟩
  next hign =>
    simp only [Option.bind_eq_bind, Option.bind_eq_some, Option.pure_def,
      Option.some.injEq] at heq
    have hcont : ∀ y : List (String × Nat) × FlowGraph ×
        List (String × String × String),
        TableInv y.2.1.edges y.2.2 ∧ CountInv y.2.1.edges →
        (List.foldlM
            (fun (acc : List (String × Nat) × FlowGraph ×
                List (String × String × String)) (p : String × PyVal) =>
              match get_id p.2 with
              | some aid =>
                if (!is_pure ev.qual_name ev.arguments
                    (env.notate_function ev.function) p.1) = true then
                  set_object_output_node env acc.1 acc.2.1 acc.2.2 p.2 aid
                    node (mutated_port_name p.1)
                else some (acc.1, acc.2.1, acc.2.2)
              | none => some (acc.1, acc.2.1, acc.2.2))
            y ev.arguments).bind
          (fun step2 =>
            (update_call_node_for_return env step2.2.1 ev
                (env.notate_function ev.function) node).bind fun g3 =>
              some
                (step2.1,
                  { eventFullName := parent.eventFullName,
                    node := parent.node, graph := some g3,
                    output_table := step2.2.2,
                    variable_table := parent.variable_table,
                    event_table :=
                      aset parent.event_table ev.token (node, "return") })) =
            some (nn2, parent2) →
        CtxInv parent2 := by
      intro y hP hk
      rw [Option.bind_eq_some] at hk
      obtain ⟨step2, hfold, hrest⟩ := hk
      rw [Option.bind_eq_some] at hrest
      obtain ⟨g3, hupd, hfin⟩ := hrest
      simp only [Option.some.injEq, Prod.mk.injEq] at hfin
      obtain ⟨h1, h2⟩ := hfin
      subst h2
      have hP2 : TableInv step2.2.1.edges step2.2.2 ∧
          CountInv step2.2.1.edges := by
        refine @foldlM_option_inv _ _
          (fun b => TableInv b.2.1.edges b.2.2 ∧ CountInv b.2.1.edges) _
          ?_ ev.arguments y step2 hfold hP
        intro b a b2 hPb hf
        cases htr : get_id a.2 with
        | none =>
          simp only [htr, Option.some.injEq] at hf
          subst hf
          exact hPb
        | some aid =>
          simp only [htr] at hf
          split at hf
          next hpure =>
            obtain ⟨c1, c2, c3⟩ := b2
            exact set_object_output_node_invariant hf hPb.1 hPb.2
          next hpure =>
            simp only [Option.some.injEq] at hf
            subst hf
            exact hPb
      intro gg hgg
      simp only [Option.some.injEq] at hgg
      subst hgg
      constructor
      · rw [update_call_edges hupd]
        exact hP2.1
      · rw [update_call_edges hupd]
        exact hP2.2
    split at heq
    next hmul =>
      rw [Option.bind_eq_some] at heq
      obtain ⟨elems, hseq, heq1⟩ := heq
      rw [Option.bind_eq_some] at heq1
      obtain ⟨y, hfold1, hk⟩ := heq1
      have hPy : TableInv y.2.1.edges y.2.2 ∧ CountInv y.2.1.edges := by
        refine @foldlM_option_inv _ _
          (fun b => TableInv b.2.1.edges b.2.2 ∧ CountInv b.2.1.edges) _
          ?_ elems.enum (nn, g, parent.output_table) y hfold1 ⟨hT, hC⟩
        intro b a b2 hPb hf
        cases htr : maybe_track a.2 with
        | some vid =>
          simp only [htr] at hf
          obtain ⟨c1, c2, c3⟩ := b2
          exact set_object_output_node_invariant hf hPb.1 hPb.2
        | none =>
          simp only [htr, Option.some.injEq] at hf
          subst hf
          exact hPb
      exact hcont y hPy hk
    next hmul =>
      cases htr : maybe_track ev.value with
      | some rid =>
        simp only [htr] at heq
        rw [Option.bind_eq_some] at heq
        obtain ⟨y, hset, hk⟩ := heq
        obtain ⟨y1, y2, y3⟩ := y
        have hPy := set_object_output_node_invariant hset hT hC
        exact hcont (y1, y2, y3) hPy hk
      | none =>
        simp only [htr, Option.some_bind] at heq
        exact hcont (nn, g, parent.output_table) ⟨hT, hC⟩ heq

/-- `_push_return_event` preserves the stack invariant. -/
theorem push_return_event_StInv {env : Env} {st : BuilderState} {ev : ReturnE}
    {st2 : BuilderState}
    (heq : push_return_event env st ev = .ok st2) (hS : StInv st) :
    StInv st2 := by
  unfold push_return_event at heq
  cases hstack : st.stack with
  | nil =>
    simp only [hstack] at heq
    exact Except.noConfusion heq
  | cons context rest =>
    simp only [hstack] at heq
    cases hfn : context.eventFullName with
    | none =>
      simp only [hfn] at heq
      exact Except.noConfusion heq
    | some fn =>
      simp only [hfn] at heq
      split at heq
      next hne => exact Except.noConfusion heq
      next hne =>
        cases hrest : rest with
        | nil =>
          simp only [hrest] at heq
          exact Except.noConfusion heq
        | cons parent rest2 =>
          simp only [hrest] at heq
          cases hg : parent.graph with
          | none =>
            simp only [hg] at heq
            exact Except.noConfusion heq
          | some g =>
            simp only [hg] at heq
            cases hcore : push_return_core env st.node_names g parent ev
                context.node with
            | none =>
              simp only [hcore] at heq
              exact Except.noConfusion heq
            | some pr =>
              rcases pr with ⟨nn2, parent2⟩
              simp only [hcore, Except.ok.injEq] at heq
              subst heq
              have hmemp : parent ∈ st.stack := by
                rw [hstack, hrest]
                exact List.mem_cons_of_mem _ (List.mem_cons_self _ _)
              have hbase := hS parent hmemp g hg
              have hinv := push_return_core_inv hcore hbase.1 hbase.2
              intro ctx hmem
              simp only [List.mem_cons] at hmem
              rcases hmem with rfl | hmem
              · exact hinv
              · exact hS ctx (by
                  rw [hstack, hrest]
                  exact List.mem_cons_of_mem _ (List.mem_cons_of_mem _ hmem))

/-- `_push_access_event` preserves the stack invariant: it touches only the
event table. -/
theorem push_access_event_StInv {st : BuilderState} {ev : AccessE}
    {st2 : BuilderState}
    (heq : push_access_event st ev = some st2) (hS : StInv st) :
    StInv st2 := by
  unfold push_access_event at heq
  cases hstack : st.stack with
  | nil =>
    simp only [hstack] at heq
    exact Option.noConfusion heq
  | cons context rest =>
    simp only [hstack, Option.some.injEq] at heq
    subst heq
    have hctx : CtxInv context :=
      hS context (by rw [hstack]; exact List.mem_cons_self _ _)
    intro ctx hmem
    simp only [List.mem_cons] at hmem
    rcases hmem with rfl | hmem
    · split
      next source hsrc => exact ctx_like_CtxInv rfl rfl hctx
      next hsrc => exact hctx
    · exact hS ctx (by rw [hstack]; exact List.mem_cons_of_mem _ hmem)

/-- `_push_assign_event` preserves the stack invariant: it touches only the
variable table. -/
theorem push_assign_event_StInv {st : BuilderState} {ev : AssignE}
    {st2 : BuilderState}
    (heq : push_assign_event st ev = some st2) (hS : StInv st) :
    StInv st2 := by
  unfold push_assign_event at heq
  cases hstack : st.stack with
  | nil =>
    simp only [hstack] at heq
    exact Option.noConfusion heq
  | cons context rest =>
    simp only [hstack] at heq
    have hctx : CtxInv context :=
      hS context (by rw [hstack]; exact List.mem_cons_self _ _)
    have hrest : ∀ ctx ∈ rest, CtxInv ctx := fun ctx hm =>
      hS ctx (by rw [hstack]; exact List.mem_cons_of_mem _ hm)
    cases hp : ev.name with
    | single name =>
      simp only [hp, Option.some.injEq] at heq
      subst heq
      intro ctx hmem
      simp only [List.mem_cons] at hmem
      rcases hmem with rfl | hmem
      · split
        next s hsrc => exact ctx_like_CtxInv rfl rfl hctx
        next hsrc => exact hctx
      · exact hrest ctx hmem
    | compound names =>
      simp only [hp, Option.bind_eq_bind, Option.bind_eq_some] at heq
      obtain ⟨elems, hseq, heq1⟩ := heq
      obtain ⟨context2, hfoldc, hfin⟩ := heq1
      simp only [Option.pure_def, Option.some.injEq] at hfin
      subst hfin
      have hlike : context2.graph = context.graph ∧
          context2.output_table = context.output_table := by
        refine @foldlM_option_inv _ _
          (fun c => c.graph = context.graph ∧
            c.output_table = context.output_table) _
          ?_ names.enum context context2 hfoldc ⟨rfl, rfl⟩
        intro b a b2 hPb hf
        cases hv : elems.get? a.1 with
        | none =>
          simp only [hv, Option.none_bind] at hf
          exact Option.noConfusion hf
        | some v =>
          simp only [hv, Option.some_bind, Option.pure_def,
            Option.some.injEq] at hf
          subst hf
          split
          next s hsrc => exact hPb
          next hsrc => exact hPb
      intro ctx hmem
      simp only [List.mem_cons] at hmem
      rcases hmem with rfl | hmem
      · exact ctx_like_CtxInv hlike.1 hlike.2 hctx
      · exact hrest ctx hmem

/-- `_push_delete_event` preserves the stack invariant. -/
theorem push_delete_event_StInv {st : BuilderState} {name : String}
    {st2 : BuilderState}
    (heq : push_delete_event st name = some st2) (hS : StInv st) :
    StInv st2 := by
  unfold push_delete_event at heq
  cases hstack : st.stack with
  | nil =>
    simp only [hstack] at heq
    exact Option.noConfusion heq
  | cons context rest =>
    simp only [hstack, Option.some.injEq] at heq
    subst heq
    intro ctx hmem
    simp only [List.mem_cons] at hmem
    rcases hmem with rfl | hmem
    · exact ctx_like_CtxInv rfl rfl
        (hS context (by rw [hstack]; exact List.mem_cons_self _ _))
    · exact hS ctx (by rw [hstack]; exact List.mem_cons_of_mem _ hmem)

/-- Every event handler preserves the stack invariant. -/
theorem push_event_StInv {env : Env} {st : BuilderState} {e : BEvent}
    {st2 : BuilderState}
    (heq : push_event env st e = .ok st2) (hS : StInv st) : StInv st2 := by
  cases e with
  | call ev =>
    simp only [push_event, opt_step] at heq
    cases hc : push_call_event env st ev with
    | none => rw [hc] at heq; exact Except.noConfusion heq
    | some s =>
      rw [hc] at heq
      simp only [Except.ok.injEq] at heq
      subst heq
      exact push_call_event_StInv hc hS
  | ret ev =>
    simp only [push_event] at heq
    exact push_return_event_StInv heq hS
  | access ev =>
    simp only [push_event, opt_step] at heq
    cases hc : push_access_event st ev with
    | none => rw [hc] at heq; exact Except.noConfusion heq
    | some s =>
      rw [hc] at heq
      simp only [Except.ok.injEq] at heq
      subst heq
      exact push_access_event_StInv hc hS
  | assign ev =>
    simp only [push_event, opt_step] at heq
    cases hc : push_assign_event st ev with
    | none => rw [hc] at heq; exact Except.noConfusion heq
    | some s =>
      rw [hc] at heq
      simp only [Except.ok.injEq] at heq
      subst heq
      exact push_assign_event_StInv hc hS
  | delete n =>
    simp only [push_event, opt_step] at heq
    cases hc : push_delete_event st n with
    | none => rw [hc] at heq; exact Except.noConfusion heq
    | some s =>
      rw [hc] at heq
      simp only [Except.ok.injEq] at heq
      subst heq
      exact push_delete_event_StInv hc hS

/-- A whole event stream preserves the stack invariant. -/
theorem push_events_StInv {env : Env} :
    ∀ (evs : List BEvent) (st st2 : BuilderState),
      push_events env st evs = .ok st2 → StInv st → StInv st2 := by
  intro evs
  induction evs with
  | nil =>
    intro st st2 heq hS
    simp only [push_events, Except.ok.injEq] at heq
    subst heq
    exact hS
  | cons e rest ih =>
    intro st st2 heq hS
    simp only [push_events] at heq
    cases hc : push_event env st e with
    | error err => rw [hc] at heq; exact Except.noConfusion heq
    | ok s =>
      rw [hc] at heq
      exact ih s st2 heq (push_event_StInv hc hS)

/-- The freshly reset builder satisfies the stack invariant. -/
theorem StInv_initial : StInv BuilderState.initial := by
  intro ctx hmem
  simp only [BuilderState.initial, List.mem_cons] at hmem
  rcases hmem with rfl | hmem
  · intro g hg
    simp only [Option.some.injEq] at hg
    subst hg
    exact ⟨TableInv_nil _, CountInv_nil⟩
  · exact absurd hmem (by simp)

end Builder

/-- C1: the builder maintains the invariant that each tracked object
identifier has at most one edge into the `OUTPUT` sentinel of any scope's
flow graph: starting from a freshly reset builder, after pushing any event
stream, every context on the stack whose graph is present has, for every
object identifier, at most one `OUTPUT` edge carrying it (the old
provider's edge having been removed whenever an object is re-produced). -/
theorem claim_C1 (env : Builder.Env) (evs : List Builder.BEvent) :
    Builder.OutputUnique
      (Builder.push_events env Builder.BuilderState.initial evs) := by
  cases hres : Builder.push_events env Builder.BuilderState.initial evs with
  | error err => simp [Builder.OutputUnique]
  | ok st =>
    have hS := Builder.push_events_StInv evs Builder.BuilderState.initial st
      hres Builder.StInv_initial
    simp only [Builder.OutputUnique]
    intro ctx hmem g hg x
    exact (hS ctx hmem g hg).2 x

end PyFlowGraph